import Mathlib

/-!
# singleflight: duplicate function call suppression

A shallow embedding of `src/singleflight/singleflight.go` and a verification of
its contract.

`Group.Do` is embedded statement by statement.  Every caller of `Do` has a
program counter naming the source line it is about to execute; `Do s t` lets
caller `t` execute that one line on the shared state `s`.  The shared state is
the `Group` (mutex and map), the heap of `call` records, and the world that the
callers' functions act on.  `Do s t = none` means the caller cannot move:
it is blocked in `Lock` or in `Wait`, or it has left `Do`.

The only addition to the program state is `log`, the list of lines executed so
far with the caller that executed each of them.  No step reads it.

A caller's function is a function of the world that returns a pair, together
with the worlds in which it panics instead (`Caller.panics`).  `Do` has no
`defer`, so a panic at line 57 carries the caller out of `Do` past lines 58-62.
`Reachable` is the states of callers whose functions return in every world;
`ReachableP` also has callers whose functions may panic.  A function that does
not terminate, or that calls `Do` on the same group itself, is outside the model.
-/

set_option linter.unusedTactic false
set_option linter.unreachableTactic false
set_option linter.unnecessarySeqFocus false
set_option linter.unusedVariables false

namespace Singleflight

variable {W : Type}

/-- A Go `interface{}` value: nil, or a value known by its identity. -/
abbrev Iface := Option Nat

/-- A Go `error` value: nil, or an error object known by its identity. -/
abbrev Error := Option Nat

/-- The struct `call` (lines 25-29): the counter of its `sync.WaitGroup`, and the
two result slots. -/
structure call where
  wg : Int
  val : Iface
  err : Error
deriving DecidableEq, Repr

/-- The struct `Group` (lines 33-36).  `mu` is `none` when the mutex is unlocked and
`some t` when caller `t` locked it; `m` is `none` for the nil map and otherwise
sends a key to the address of its `call`. -/
structure Group where
  mu : Option Nat
  m : Option (String → Option Nat)

/-- The line of `Do` a caller is about to execute, with the value of its local `c`
once that is set. -/
inductive PC where
  | lock1                      -- line 43: g.mu.Lock()
  | initMap                    -- lines 44-46: if g.m == nil then make
  | lookup                     -- line 47: c, ok := g.m[key]
  | hitUnlock (c : Nat)        -- line 48: g.mu.Unlock()
  | wait (c : Nat)             -- line 49: c.wg.Wait()
  | hitReturn (c : Nat)        -- line 50: return c.val, c.err
  | newCall                    -- line 52: c := new(call)
  | wgAdd (c : Nat)            -- line 53: c.wg.Add(1)
  | insert (c : Nat)           -- line 54: g.m[key] = c
  | missUnlock (c : Nat)       -- line 55: g.mu.Unlock()
  | callFn (c : Nat)           -- line 57: fn is about to be invoked
  | inFn (c : Nat)             -- line 57: fn is running; its results are stored when it returns
  | wgDone (c : Nat)           -- line 58: c.wg.Done()
  | lock2 (c : Nat)            -- line 60: g.mu.Lock()
  | delete (c : Nat)           -- line 61: delete(g.m, key)
  | unlock2 (c : Nat)          -- line 62: g.mu.Unlock()
  | leaderReturn (c : Nat)     -- line 64: return c.val, c.err
  | returned (v : Iface) (e : Error)   -- Do has returned (v, e)
  | unwound (c : Nat)          -- line 57: fn panicked, and the panic has left Do
  | panicked                   -- the caller faulted
deriving DecidableEq, Repr

/-- What an executed line did; the entries of the log. -/
inductive Op where
  | lock
  | init
  | hit (c : Nat)
  | miss
  | unlock
  | woke (c : Nat)
  | new (c : Nat)
  | add (c : Nat)
  | store (k : String) (c : Nat)
  | invoke (c : Nat)
  | result (c : Nat) (v : Iface) (e : Error)
  | signal (c : Nat)
  | remove (k : String)
  | ret (v : Iface) (e : Error)
  | fault
  | panic (c : Nat)
deriving DecidableEq, Repr

/-- One call `Do(key, fn)`: its arguments and where it stands.  The function `fn`,
started in the world `w`, panics when `panics w` and otherwise returns `(fn w).1`; in
both cases it leaves the world `(fn w).2`. -/
structure Caller (W : Type) where
  key : String
  fn : W → (Iface × Error) × W
  panics : W → Bool
  pc : PC

/-- The state of the program: the group, the heap of `call` records with the next
free address, the callers, the world, and the log. -/
structure State (W : Type) where
  g : Group
  heap : Nat → call
  next : Nat
  callers : Nat → Option (Caller W)
  ncallers : Nat
  world : W
  log : List (Nat × Op)

/-- The zero-value `Group` with no caller yet. -/
def init (w : W) : State W :=
  { g := ⟨none, none⟩, heap := fun _ => ⟨0, none, none⟩, next := 0,
    callers := fun _ => none, ncallers := 0, world := w, log := [] }

/-- A new caller enters `Do(k, f)`, where `f` panics in the worlds `p`; it is given the
next caller number. -/
def enter (s : State W) (k : String) (f : W → (Iface × Error) × W) (p : W → Bool) : State W :=
  { s with callers := Function.update s.callers s.ncallers (some ⟨k, f, p, .lock1⟩),
           ncallers := s.ncallers + 1 }

/-- A new caller enters `Do(k, f)` with a function `f` that returns in every world. -/
def spawn (s : State W) (k : String) (f : W → (Iface × Error) × W) : State W :=
  enter s k f fun _ => false

/-- The read `g.m[key]`; a nil map reads as empty. -/
def mapGet (m : Option (String → Option Nat)) (k : String) : Option Nat :=
  match m with
  | none => none
  | some f => f k

/-- Caller `t` moves to `pc`, and the line it executed is logged. -/
def goto (s : State W) (t : Nat) (cl : Caller W) (pc : PC) (op : Op) : State W :=
  { s with callers := Function.update s.callers t (some { cl with pc := pc }),
           log := s.log ++ [(t, op)] }

/-- The effect of `g.mu.Unlock()`: unlocking an unlocked mutex is a fatal error. -/
def unlock (s : State W) (t : Nat) (cl : Caller W) (pc : PC) : State W :=
  match s.g.mu with
  | none => goto s t cl .panicked .fault
  | some _ => goto { s with g := { s.g with mu := none } } t cl pc .unlock

/-- The effect of `g.mu.Lock()`: it is taken only when the mutex is unlocked. -/
def lock (s : State W) (t : Nat) (cl : Caller W) (pc : PC) : Option (State W) :=
  match s.g.mu with
  | none => some (goto { s with g := { s.g with mu := some t } } t cl pc .lock)
  | some _ => none

/-- Caller `t` executes the line of `Group.Do` (lines 42-65) it stands at. -/
def Do (s : State W) (t : Nat) : Option (State W) :=
  match s.callers t with
  | none => none
  | some cl =>
    match cl.pc with
    | .lock1 => lock s t cl .initMap
    | .initMap =>
      match s.g.m with
      | none => some (goto { s with g := { s.g with m := some (fun _ => none) } } t cl .lookup .init)
      | some _ => some (goto s t cl .lookup .init)
    | .lookup =>
      match mapGet s.g.m cl.key with
      | some c => some (goto s t cl (.hitUnlock c) (.hit c))
      | none => some (goto s t cl .newCall .miss)
    | .hitUnlock c => some (unlock s t cl (.wait c))
    | .wait c =>
      if (s.heap c).wg = 0 then some (goto s t cl (.hitReturn c) (.woke c)) else none
    | .hitReturn c =>
      some (goto s t cl (.returned (s.heap c).val (s.heap c).err)
        (.ret (s.heap c).val (s.heap c).err))
    | .newCall =>
      some (goto { s with heap := Function.update s.heap s.next ⟨0, none, none⟩,
                          next := s.next + 1 } t cl (.wgAdd s.next) (.new s.next))
    | .wgAdd c =>
      if (s.heap c).wg + 1 < 0 then some (goto s t cl .panicked .fault)
      else
        let c' : call := ⟨(s.heap c).wg + 1, (s.heap c).val, (s.heap c).err⟩
        some (goto { s with heap := Function.update s.heap c c' } t cl (.insert c) (.add c))
    | .insert c =>
      match s.g.m with
      | none => some (goto s t cl .panicked .fault)
      | some f =>
        some (goto { s with g := { s.g with m := some (Function.update f cl.key (some c)) } }
          t cl (.missUnlock c) (.store cl.key c))
    | .missUnlock c => some (unlock s t cl (.callFn c))
    | .callFn c => some (goto s t cl (.inFn c) (.invoke c))
    | .inFn c =>
      let r := cl.fn s.world
      if cl.panics s.world then
        some (goto { s with world := r.2 } t cl (.unwound c) (.panic c))
      else
        let c' : call := ⟨(s.heap c).wg, r.1.1, r.1.2⟩
        some (goto { s with heap := Function.update s.heap c c', world := r.2 }
          t cl (.wgDone c) (.result c r.1.1 r.1.2))
    | .wgDone c =>
      if (s.heap c).wg - 1 < 0 then some (goto s t cl .panicked .fault)
      else
        let c' : call := ⟨(s.heap c).wg - 1, (s.heap c).val, (s.heap c).err⟩
        some (goto { s with heap := Function.update s.heap c c' } t cl (.lock2 c) (.signal c))
    | .lock2 c => lock s t cl (.delete c)
    | .delete c =>
      match s.g.m with
      | none => some (goto s t cl (.unlock2 c) (.remove cl.key))
      | some f =>
        some (goto { s with g := { s.g with m := some (Function.update f cl.key none) } }
          t cl (.unlock2 c) (.remove cl.key))
    | .unlock2 c => some (unlock s t cl (.leaderReturn c))
    | .leaderReturn c =>
      some (goto s t cl (.returned (s.heap c).val (s.heap c).err)
        (.ret (s.heap c).val (s.heap c).err))
    | .returned _ _ => none
    | .unwound _ => none
    | .panicked => none

/-- What can happen next: a new caller enters `Do`, or a caller executes a line. -/
inductive Action (W : Type) where
  | call (k : String) (f : W → (Iface × Error) × W)
  | step (t : Nat)

/-- One action on a state. -/
def exec (s : State W) : Action W → Option (State W)
  | .call k f => some (spawn s k f)
  | .step t => Do s t

/-- Caller `t` alone executes `n` lines. -/
def runSolo (s : State W) (t : Nat) : Nat → Option (State W)
  | 0 => some s
  | n + 1 => (Do s t).bind fun s' => runSolo s' t n

/-- The states of any number of callers on one zero-value group, under every
interleaving of their lines, when the callers' functions return in every world. -/
inductive Reachable : State W → Prop where
  | init (w : W) : Reachable (init w)
  | call {s : State W} (k : String) (f : W → (Iface × Error) × W) :
      Reachable s → Reachable (spawn s k f)
  | step {s s' : State W} (t : Nat) : Reachable s → Do s t = some s' → Reachable s'

/-- The states of any number of callers on one zero-value group, under every
interleaving of their lines, when the callers' functions may panic. -/
inductive ReachableP : State W → Prop where
  | init (w : W) : ReachableP (init w)
  | call {s : State W} (k : String) (f : W → (Iface × Error) × W) (p : W → Bool) :
      ReachableP s → ReachableP (enter s k f p)
  | step {s s' : State W} (t : Nat) : ReachableP s → Do s t = some s' → ReachableP s'

/-- The program counter of caller `t`, if there is such a caller. -/
def pcOf (s : State W) (t : Nat) : Option PC := (s.callers t).map (·.pc)

/-- The key of caller `t`, if there is such a caller. -/
def keyOf (s : State W) (t : Nat) : Option String := (s.callers t).map (·.key)

/-- The lines caller `t` has executed, oldest first. -/
def hist (log : List (Nat × Op)) (t : Nat) : List Op :=
  (log.filter fun e => e.1 = t).map (·.2)

/-! ## The invariant of the reachable states: definitions -/

/-- Whether a caller standing at `pc` is inside one of the two sections of `Do`
between a `Lock` and its `Unlock` (lines 44-55 and 61-62). -/
def holdsLock : PC → Bool
  | .initMap | .lookup | .hitUnlock _ | .newCall | .wgAdd _ | .insert _
  | .missUnlock _ | .delete _ | .unlock2 _ => true
  | _ => false

/-- Whether a caller standing at `pc` has stored its `call` record `c` in the map
(line 54) and has not yet executed its `delete` (line 61). -/
def inFlight (pc : PC) (c : Nat) : Bool :=
  pc = .missUnlock c || pc = .callFn c || pc = .inFn c || pc = .wgDone c
    || pc = .lock2 c || pc = .delete c

/-- Whether a caller standing at `pc` has found its key absent (line 47) and has not
yet stored its own record (line 54). -/
def admitting : PC → Bool
  | .newCall | .wgAdd _ | .insert _ => true
  | _ => false

/-- The lines a caller of `Do(k, _)` standing at `pc` has executed: the paths through
the source of `Do` that end at `pc`. -/
def Trail (k : String) : PC → List Op → Prop
  | .lock1, h => h = []
  | .initMap, h => h = [.lock]
  | .lookup, h => h = [.lock, .init]
  | .hitUnlock c, h => h = [.lock, .init, .hit c]
  | .wait c, h => h = [.lock, .init, .hit c, .unlock]
  | .hitReturn c, h => h = [.lock, .init, .hit c, .unlock, .woke c]
  | .newCall, h => h = [.lock, .init, .miss]
  | .wgAdd c, h => h = [.lock, .init, .miss, .new c]
  | .insert c, h => h = [.lock, .init, .miss, .new c, .add c]
  | .missUnlock c, h => h = [.lock, .init, .miss, .new c, .add c, .store k c]
  | .callFn c, h => h = [.lock, .init, .miss, .new c, .add c, .store k c, .unlock]
  | .inFn c, h => h = [.lock, .init, .miss, .new c, .add c, .store k c, .unlock, .invoke c]
  | .wgDone c, h => ∃ v e, h = [.lock, .init, .miss, .new c, .add c, .store k c, .unlock,
      .invoke c, .result c v e]
  | .lock2 c, h => ∃ v e, h = [.lock, .init, .miss, .new c, .add c, .store k c, .unlock,
      .invoke c, .result c v e, .signal c]
  | .delete c, h => ∃ v e, h = [.lock, .init, .miss, .new c, .add c, .store k c, .unlock,
      .invoke c, .result c v e, .signal c, .lock]
  | .unlock2 c, h => ∃ v e, h = [.lock, .init, .miss, .new c, .add c, .store k c, .unlock,
      .invoke c, .result c v e, .signal c, .lock, .remove k]
  | .leaderReturn c, h => ∃ v e, h = [.lock, .init, .miss, .new c, .add c, .store k c, .unlock,
      .invoke c, .result c v e, .signal c, .lock, .remove k, .unlock]
  | .returned v e, h =>
      (∃ c, h = [.lock, .init, .hit c, .unlock, .woke c, .ret v e]) ∨
      (∃ c, h = [.lock, .init, .miss, .new c, .add c, .store k c, .unlock,
        .invoke c, .result c v e, .signal c, .lock, .remove k, .unlock, .ret v e])
  | .unwound c, h => h = [.lock, .init, .miss, .new c, .add c, .store k c, .unlock,
      .invoke c, .panic c]
  | .panicked, _ => False

/-- The invariant of the reachable states, with functions that may panic. -/
structure Inv (s : State W) : Prop where
  dom : ∀ t, s.callers t = none ↔ s.ncallers ≤ t
  logDom : ∀ t op, (t, op) ∈ s.log → t < s.ncallers
  lockInv : ∀ t, s.g.mu = some t ↔ ∃ cl, s.callers t = some cl ∧ holdsLock cl.pc = true
  trail : ∀ t cl, s.callers t = some cl → Trail cl.key cl.pc (hist s.log t)
  mapInit : ∀ t, (t, Op.init) ∈ s.log → s.g.m ≠ none
  absent : ∀ t cl, s.callers t = some cl → admitting cl.pc = true → mapGet s.g.m cl.key = none
  present : ∀ t cl c, s.callers t = some cl → inFlight cl.pc c = true →
    mapGet s.g.m cl.key = some c
  presentU : ∀ t cl c, s.callers t = some cl → cl.pc = .unwound c →
    mapGet s.g.m cl.key = some c
  leader : ∀ k c, mapGet s.g.m k = some c →
    ∃ t cl, s.callers t = some cl ∧ cl.key = k ∧
      (inFlight cl.pc c = true ∨ cl.pc = .unwound c)
  newLt : ∀ t c, (t, Op.new c) ∈ s.log → c < s.next
  newUniq : ∀ t t' c, (t, Op.new c) ∈ s.log → (t', Op.new c) ∈ s.log → t = t'
  heapWg : ∀ t c, (t, Op.new c) ∈ s.log →
    (s.heap c).wg = (if (t, Op.add c) ∈ s.log then 1 else 0)
      - (if (t, Op.signal c) ∈ s.log then 1 else 0)
  heapRes : ∀ t c v e, (t, Op.result c v e) ∈ s.log → (s.heap c).val = v ∧ (s.heap c).err = e
  hitStore : ∀ t cl c, s.callers t = some cl → (t, Op.hit c) ∈ s.log →
    ∃ l, (l, Op.store cl.key c) ∈ s.log
  wokeSignal : ∀ t c, (t, Op.woke c) ∈ s.log → ∃ l, (l, Op.signal c) ∈ s.log
  hitRet : ∀ t c v e, (t, Op.hit c) ∈ s.log → (t, Op.ret v e) ∈ s.log →
    ∃ l, (l, Op.result c v e) ∈ s.log
  resFn : ∀ t cl c v e, s.callers t = some cl → (t, Op.result c v e) ∈ s.log →
    ∃ w, (cl.fn w).1 = (v, e)
  panicFn : ∀ t cl c, s.callers t = some cl → cl.pc = .unwound c →
    ∃ w, cl.panics w = true

/-- One line of `Do` executed by caller `t`, the branches that fault inside `Do` left
out. -/
inductive Step (s : State W) (t : Nat) : State W → Prop where
  | lock1 (cl : Caller W) (hcl : s.callers t = some cl) (hpc : cl.pc = .lock1)
      (hmu : s.g.mu = none) :
      Step s t (goto { s with g := { s.g with mu := some t } } t cl .initMap .lock)
  | initNil (cl : Caller W) (hcl : s.callers t = some cl) (hpc : cl.pc = .initMap)
      (hm : s.g.m = none) :
      Step s t (goto { s with g := { s.g with m := some (fun _ => none) } } t cl .lookup .init)
  | initSome (cl : Caller W) (hcl : s.callers t = some cl) (hpc : cl.pc = .initMap)
      (f : String → Option Nat) (hm : s.g.m = some f) :
      Step s t (goto s t cl .lookup .init)
  | hit (cl : Caller W) (hcl : s.callers t = some cl) (hpc : cl.pc = .lookup)
      (c : Nat) (hc : mapGet s.g.m cl.key = some c) :
      Step s t (goto s t cl (.hitUnlock c) (.hit c))
  | miss (cl : Caller W) (hcl : s.callers t = some cl) (hpc : cl.pc = .lookup)
      (hc : mapGet s.g.m cl.key = none) :
      Step s t (goto s t cl .newCall .miss)
  | hitUnlock (cl : Caller W) (hcl : s.callers t = some cl) (c : Nat)
      (hpc : cl.pc = .hitUnlock c) :
      Step s t (goto { s with g := { s.g with mu := none } } t cl (.wait c) .unlock)
  | wait (cl : Caller W) (hcl : s.callers t = some cl) (c : Nat)
      (hpc : cl.pc = .wait c) (hwg : (s.heap c).wg = 0) :
      Step s t (goto s t cl (.hitReturn c) (.woke c))
  | hitReturn (cl : Caller W) (hcl : s.callers t = some cl) (c : Nat)
      (hpc : cl.pc = .hitReturn c) :
      Step s t (goto s t cl (.returned (s.heap c).val (s.heap c).err)
        (.ret (s.heap c).val (s.heap c).err))
  | newCall (cl : Caller W) (hcl : s.callers t = some cl) (hpc : cl.pc = .newCall) :
      Step s t (goto { s with heap := Function.update s.heap s.next ⟨0, none, none⟩,
                              next := s.next + 1 } t cl (.wgAdd s.next) (.new s.next))
  | wgAdd (cl : Caller W) (hcl : s.callers t = some cl) (c : Nat)
      (hpc : cl.pc = .wgAdd c) :
      Step s t (goto { s with heap := Function.update s.heap c
                                        ⟨(s.heap c).wg + 1, (s.heap c).val, (s.heap c).err⟩ }
        t cl (.insert c) (.add c))
  | insert (cl : Caller W) (hcl : s.callers t = some cl) (c : Nat)
      (hpc : cl.pc = .insert c) (f : String → Option Nat) (hm : s.g.m = some f) :
      Step s t (goto { s with g := { s.g with m := some (Function.update f cl.key (some c)) } }
          t cl (.missUnlock c) (.store cl.key c))
  | missUnlock (cl : Caller W) (hcl : s.callers t = some cl) (c : Nat)
      (hpc : cl.pc = .missUnlock c) :
      Step s t (goto { s with g := { s.g with mu := none } } t cl (.callFn c) .unlock)
  | callFn (cl : Caller W) (hcl : s.callers t = some cl) (c : Nat)
      (hpc : cl.pc = .callFn c) :
      Step s t (goto s t cl (.inFn c) (.invoke c))
  | inFn (cl : Caller W) (hcl : s.callers t = some cl) (c : Nat)
      (hpc : cl.pc = .inFn c) :
      Step s t (goto { s with heap := Function.update s.heap c
                                        ⟨(s.heap c).wg, (cl.fn s.world).1.1, (cl.fn s.world).1.2⟩,
                              world := (cl.fn s.world).2 }
        t cl (.wgDone c) (.result c (cl.fn s.world).1.1 (cl.fn s.world).1.2))
  | unwind (cl : Caller W) (hcl : s.callers t = some cl) (c : Nat)
      (hpc : cl.pc = .inFn c) (hp : cl.panics s.world = true) :
      Step s t (goto { s with world := (cl.fn s.world).2 } t cl (.unwound c) (.panic c))
  | wgDone (cl : Caller W) (hcl : s.callers t = some cl) (c : Nat)
      (hpc : cl.pc = .wgDone c) :
      Step s t (goto { s with heap := Function.update s.heap c
                                        ⟨(s.heap c).wg - 1, (s.heap c).val, (s.heap c).err⟩ }
        t cl (.lock2 c) (.signal c))
  | lock2 (cl : Caller W) (hcl : s.callers t = some cl) (c : Nat)
      (hpc : cl.pc = .lock2 c) (hmu : s.g.mu = none) :
      Step s t (goto { s with g := { s.g with mu := some t } } t cl (.delete c) .lock)
  | delete (cl : Caller W) (hcl : s.callers t = some cl) (c : Nat)
      (hpc : cl.pc = .delete c) (f : String → Option Nat) (hm : s.g.m = some f) :
      Step s t (goto { s with g := { s.g with m := some (Function.update f cl.key none) } }
          t cl (.unlock2 c) (.remove cl.key))
  | unlock2 (cl : Caller W) (hcl : s.callers t = some cl) (c : Nat)
      (hpc : cl.pc = .unlock2 c) :
      Step s t (goto { s with g := { s.g with mu := none } } t cl (.leaderReturn c) .unlock)
  | leaderReturn (cl : Caller W) (hcl : s.callers t = some cl) (c : Nat)
      (hpc : cl.pc = .leaderReturn c) :
      Step s t (goto s t cl (.returned (s.heap c).val (s.heap c).err)
        (.ret (s.heap c).val (s.heap c).err))

/-- The mutex is held by exactly the caller inside a locked section. -/
def LockOk (mu : Option Nat) (cs : Nat → Option (Caller W)) : Prop :=
  ∀ u, mu = some u ↔ ∃ cl, cs u = some cl ∧ holdsLock cl.pc = true

/-- What a run of caller `t` alone leaves unchanged: the other callers and their number. -/
def SameOthers (s s' : State W) (t : Nat) : Prop :=
  s'.ncallers = s.ncallers ∧ ∀ u, u ≠ t → s'.callers u = s.callers u

/-- The lines a leader executes, in order, with the results `(v, e)` of its function. -/
def leaderPath (k : String) (c : Nat) (v : Iface) (e : Error) : List Op :=
  [.lock, .init, .miss, .new c, .add c, .store k c, .unlock, .invoke c, .result c v e,
   .signal c, .lock, .remove k, .unlock, .ret v e]

/-- The number of times a caller's function has been invoked, all callers together. -/
def invokes (log : List (Nat × Op)) : Nat :=
  log.countP fun e => match e.2 with
    | .invoke _ => true
    | _ => false

/-- The state after a schedule, cut where an action cannot be taken. -/
def after (s : State W) : List (Action W) → State W
  | [] => s
  | a :: as =>
    match exec s a with
    | some s' => after s' as
    | none => s

/-- An error-returning function on a counter world. -/
def failing : Nat → (Iface × Error) × Nat := fun w => ((none, some 7), w + 1)

/-- A value-returning function on a counter world. -/
def counting : Nat → (Iface × Error) × Nat := fun w => ((some (10 + w), none), w + 1)

/-- The number of invocations of a function for the `call` record `c`. -/
def invocations (log : List (Nat × Op)) (c : Nat) : Nat :=
  log.countP fun e => decide (e.2 = Op.invoke c)

/-- A leader inside its function, a second caller of the same key at its lookup, and a
caller of another key that has not moved yet. -/
def contended : State Nat :=
  after (init 0) ([.call "k" counting, .call "k" failing, .call "j" counting]
    ++ List.replicate 8 (.step 0) ++ List.replicate 2 (.step 1))

/-- Whether a logged line is a write of the result slots of `c`. -/
def isWrite (c : Nat) : Op → Bool
  | .result c' _ _ => decide (c' = c)
  | _ => false

/-- The number of times the result slots of the `call` record `c` have been written. -/
def writes (log : List (Nat × Op)) (c : Nat) : Nat :=
  log.countP fun e => isWrite c e.2

/-- A leader that failed and a waiter of the same key, both returned. -/
def fannedOut : State Nat :=
  after (init 0) ([.call "k" failing, .call "k" counting]
    ++ List.replicate 7 (.step 0) ++ List.replicate 4 (.step 1)
    ++ List.replicate 7 (.step 0) ++ List.replicate 2 (.step 1))

/-- A leader that has signalled completion (line 58) and has not yet taken the mutex
for its delete (line 60), and a second caller of the same key at its lookup. -/
def raced : State Nat :=
  after (init 0) ([.call "k" counting, .call "k" failing]
    ++ List.replicate 10 (.step 0) ++ List.replicate 2 (.step 1))

/-- Whether a caller standing at `pc` is a leader that has not yet signalled
completion (lines 52-58). -/
def leading : PC → Bool
  | .newCall | .wgAdd _ | .insert _ | .missUnlock _ | .callFn _ | .inFn _ | .wgDone _ => true
  | _ => false

/-- The number of times caller `t` has taken the mutex. -/
def acquired (log : List (Nat × Op)) (t : Nat) : Nat := (hist log t).count .lock

/-- The number of times caller `t` has released the mutex. -/
def released (log : List (Nat × Op)) (t : Nat) : Nat := (hist log t).count .unlock

/-- A leader whose function panics, run until the panic has carried it out of `Do`. -/
def leaked : State Nat :=
  after (enter (init 0) "k" counting fun _ => true) (List.replicate 9 (.step 0))

/-- Two leaders of different keys, the first at its delete, the second inside its
function. -/
def retiring : State Nat :=
  after (init 0) ([.call "k" counting, .call "j" failing]
    ++ List.replicate 7 (.step 0) ++ List.replicate 8 (.step 1) ++ List.replicate 4 (.step 0))

/-! ## The log and the trails -/

theorem mem_hist (log : List (Nat × Op)) (t : Nat) (op : Op) :
    op ∈ hist log t ↔ (t, op) ∈ log := by
  simp [hist]

theorem hist_append_self (log : List (Nat × Op)) (t : Nat) (op : Op) :
    hist (log ++ [(t, op)]) t = hist log t ++ [op] := by
  simp [hist, List.filter_append, List.filter_cons]

theorem hist_append_other (log : List (Nat × Op)) (t t' : Nat) (op : Op) (h : t' ≠ t) :
    hist (log ++ [(t', op)]) t = hist log t := by
  simp [hist, List.filter_append, List.filter_cons, h]

theorem hist_append (l₁ l₂ : List (Nat × Op)) (t : Nat) :
    hist (l₁ ++ l₂) t = hist l₁ t ++ hist l₂ t := by
  simp [hist, List.filter_append]

theorem hist_nil_of_not_mem (log : List (Nat × Op)) (t : Nat)
    (h : ∀ op, (t, op) ∉ log) : hist log t = [] := by
  apply List.eq_nil_iff_forall_not_mem.mpr
  intro op hop
  exact h op ((mem_hist log t op).mp hop)

@[simp] theorem goto_callers (s : State W) (t : Nat) (cl : Caller W) (pc : PC) (op : Op) :
    (goto s t cl pc op).callers = Function.update s.callers t (some { cl with pc := pc }) := rfl

@[simp] theorem goto_log (s : State W) (t : Nat) (cl : Caller W) (pc : PC) (op : Op) :
    (goto s t cl pc op).log = s.log ++ [(t, op)] := rfl

@[simp] theorem goto_g (s : State W) (t : Nat) (cl : Caller W) (pc : PC) (op : Op) :
    (goto s t cl pc op).g = s.g := rfl

@[simp] theorem goto_heap (s : State W) (t : Nat) (cl : Caller W) (pc : PC) (op : Op) :
    (goto s t cl pc op).heap = s.heap := rfl

@[simp] theorem goto_next (s : State W) (t : Nat) (cl : Caller W) (pc : PC) (op : Op) :
    (goto s t cl pc op).next = s.next := rfl

@[simp] theorem goto_ncallers (s : State W) (t : Nat) (cl : Caller W) (pc : PC) (op : Op) :
    (goto s t cl pc op).ncallers = s.ncallers := rfl

@[simp] theorem goto_world (s : State W) (t : Nat) (cl : Caller W) (pc : PC) (op : Op) :
    (goto s t cl pc op).world = s.world := rfl

/-! ## The invariant holds initially and when a caller enters -/

theorem inv_init (w : W) : Inv (init w) := by
  constructor <;> simp [init, mapGet]

theorem inv_enter {s : State W} (hinv : Inv s) (k : String) (f : W → (Iface × Error) × W)
    (p : W → Bool) : Inv (enter s k f p) := by
  have hnone : s.callers s.ncallers = none := (hinv.dom _).mpr (le_refl _)
  have hold : ∀ t cl, s.callers t = some cl →
      Function.update s.callers s.ncallers (some ⟨k, f, p, .lock1⟩) t = some cl := by
    intro t cl hcl
    have : t ≠ s.ncallers := by
      intro h; subst h; simp [hnone] at hcl
    simp [Function.update_apply, this, hcl]
  have hcases : ∀ t cl, (enter s k f p).callers t = some cl →
      (t = s.ncallers ∧ cl = ⟨k, f, p, .lock1⟩) ∨
        (t ≠ s.ncallers ∧ s.callers t = some cl) := by
    intro t cl hcl
    by_cases ht : t = s.ncallers
    · left; subst ht; simp [enter] at hcl; exact ⟨rfl, hcl.symm⟩
    · right; simp [enter, Function.update_apply, ht] at hcl; exact ⟨ht, hcl⟩
  constructor
  · intro t
    by_cases h1 : t = s.ncallers
    · subst h1; simp [enter]
    · have := hinv.dom t
      simp only [enter, Function.update_noteq h1, this]
      omega
  · intro t op h
    have := hinv.logDom t op h
    simp [enter]; omega
  · intro t
    constructor
    · intro h
      obtain ⟨cl, hcl, hl⟩ := (hinv.lockInv t).mp h
      exact ⟨cl, hold t cl hcl, hl⟩
    · rintro ⟨cl, hcl, hl⟩
      rcases hcases t cl hcl with ⟨_, rfl⟩ | ⟨_, hcl'⟩
      · simp [holdsLock] at hl
      · exact (hinv.lockInv t).mpr ⟨cl, hcl', hl⟩
  · intro t cl hcl
    rcases hcases t cl hcl with ⟨rfl, rfl⟩ | ⟨_, hcl'⟩
    · have : hist s.log s.ncallers = [] := by
        apply hist_nil_of_not_mem
        intro op hop
        have := hinv.logDom _ _ hop
        omega
      simpa [Trail, enter] using this
    · exact hinv.trail t cl hcl'
  · exact hinv.mapInit
  · intro t cl hcl ha
    rcases hcases t cl hcl with ⟨_, rfl⟩ | ⟨_, hcl'⟩
    · simp [admitting] at ha
    · exact hinv.absent t cl hcl' ha
  · intro t cl c hcl ha
    rcases hcases t cl hcl with ⟨_, rfl⟩ | ⟨_, hcl'⟩
    · simp [inFlight] at ha
    · exact hinv.present t cl c hcl' ha
  · intro t cl c hcl ha
    rcases hcases t cl hcl with ⟨_, rfl⟩ | ⟨_, hcl'⟩
    · simp at ha
    · exact hinv.presentU t cl c hcl' ha
  · intro k' c hk
    obtain ⟨t, cl, hcl, hkey, hfl⟩ := hinv.leader k' c hk
    exact ⟨t, cl, hold t cl hcl, hkey, hfl⟩
  · exact hinv.newLt
  · exact hinv.newUniq
  · exact hinv.heapWg
  · exact hinv.heapRes
  · intro t cl c hcl hh
    rcases hcases t cl hcl with ⟨rfl, rfl⟩ | ⟨_, hcl'⟩
    · have := hinv.logDom _ _ hh
      simp [enter] at this
    · exact hinv.hitStore t cl c hcl' hh
  · exact hinv.wokeSignal
  · exact hinv.hitRet
  · intro t cl c v e hcl hh
    rcases hcases t cl hcl with ⟨rfl, rfl⟩ | ⟨_, hcl'⟩
    · have := hinv.logDom _ _ hh
      simp [enter] at this
    · exact hinv.resFn t cl c v e hcl' hh
  · intro t cl c hcl hpc
    rcases hcases t cl hcl with ⟨_, rfl⟩ | ⟨_, hcl'⟩
    · simp at hpc
    · exact hinv.panicFn t cl c hcl' hpc

theorem inv_spawn {s : State W} (hinv : Inv s) (k : String) (f : W → (Iface × Error) × W) :
    Inv (spawn s k f) :=
  inv_enter hinv k f fun _ => false

theorem wg_of_hist {s : State W} (hinv : Inv s) (t c : Nat)
    (hnew : Op.new c ∈ hist s.log t) :
    (s.heap c).wg = (if Op.add c ∈ hist s.log t then 1 else 0)
      - (if Op.signal c ∈ hist s.log t then 1 else 0) := by
  have := hinv.heapWg t c ((mem_hist _ _ _).mp hnew)
  simpa [mem_hist] using this

theorem Do_step {s s' : State W} {t : Nat} (hinv : Inv s) (h : Do s t = some s') :
    Step s t s' := by
  unfold Do at h
  cases hcl : s.callers t with
  | none => simp [hcl] at h
  | some cl =>
    have htr := hinv.trail t cl hcl
    have hmu : holdsLock cl.pc = true → s.g.mu = some t :=
      fun hl => (hinv.lockInv t).mpr ⟨cl, hcl, hl⟩
    simp only [hcl] at h
    cases hpc : cl.pc with
    | lock1 =>
      simp only [hpc, lock] at h
      cases hm : s.g.mu with
      | none => simp only [hm, Option.some.injEq] at h; subst h; exact .lock1 cl hcl hpc hm
      | some x => simp [hm] at h
    | initMap =>
      simp only [hpc] at h
      cases hm : s.g.m with
      | none => simp only [hm, Option.some.injEq] at h; subst h; exact .initNil cl hcl hpc hm
      | some f => simp only [hm, Option.some.injEq] at h; subst h; exact .initSome cl hcl hpc f hm
    | lookup =>
      simp only [hpc] at h
      cases hm : mapGet s.g.m cl.key with
      | none => simp only [hm, Option.some.injEq] at h; subst h; exact .miss cl hcl hpc hm
      | some c => simp only [hm, Option.some.injEq] at h; subst h; exact .hit cl hcl hpc c hm
    | hitUnlock c =>
      have := hmu (by simp [hpc, holdsLock])
      simp only [hpc, unlock, this, Option.some.injEq] at h; subst h
      exact .hitUnlock cl hcl c hpc
    | wait c =>
      simp only [hpc] at h
      split at h
      · rename_i hwg
        simp only [Option.some.injEq] at h; subst h; exact .wait cl hcl c hpc hwg
      · simp at h
    | hitReturn c =>
      simp only [hpc, Option.some.injEq] at h; subst h; exact .hitReturn cl hcl c hpc
    | newCall =>
      simp only [hpc, Option.some.injEq] at h; subst h; exact .newCall cl hcl hpc
    | wgAdd c =>
      rw [hpc] at htr; simp only [Trail] at htr
      have hwg := wg_of_hist hinv t c (by simp [htr])
      simp [htr] at hwg
      simp only [hpc, hwg] at h
      simp at h
      subst h
      have := Step.wgAdd (s := s) (t := t) cl hcl c hpc
      simpa [hwg] using this
    | insert c =>
      rw [hpc] at htr; simp only [Trail] at htr
      have hne := hinv.mapInit t ((mem_hist _ _ _).mp (by simp [htr]))
      simp only [hpc] at h
      cases hm : s.g.m with
      | none => exact absurd hm hne
      | some f => simp only [hm, Option.some.injEq] at h; subst h; exact .insert cl hcl c hpc f hm
    | missUnlock c =>
      have := hmu (by simp [hpc, holdsLock])
      simp only [hpc, unlock, this, Option.some.injEq] at h; subst h
      exact .missUnlock cl hcl c hpc
    | callFn c =>
      simp only [hpc, Option.some.injEq] at h; subst h; exact .callFn cl hcl c hpc
    | inFn c =>
      simp only [hpc] at h
      cases hp : cl.panics s.world with
      | true =>
        simp only [hp, if_true, Option.some.injEq] at h; subst h; exact .unwind cl hcl c hpc hp
      | false =>
        simp only [hp, Bool.false_eq_true, if_false, Option.some.injEq] at h
        subst h; exact .inFn cl hcl c hpc
    | wgDone c =>
      rw [hpc] at htr; simp only [Trail] at htr
      obtain ⟨v, e, htr⟩ := htr
      have hwg := wg_of_hist hinv t c (by simp [htr])
      simp [htr] at hwg
      simp only [hpc, hwg] at h
      simp at h
      subst h
      have := Step.wgDone (s := s) (t := t) cl hcl c hpc
      simpa [hwg] using this
    | lock2 c =>
      simp only [hpc, lock] at h
      cases hm : s.g.mu with
      | none => simp only [hm, Option.some.injEq] at h; subst h; exact .lock2 cl hcl c hpc hm
      | some x => simp [hm] at h
    | delete c =>
      rw [hpc] at htr; simp only [Trail] at htr
      obtain ⟨v, e, htr⟩ := htr
      have hne := hinv.mapInit t ((mem_hist _ _ _).mp (by simp [htr]))
      simp only [hpc] at h
      cases hm : s.g.m with
      | none => exact absurd hm hne
      | some f => simp only [hm, Option.some.injEq] at h; subst h; exact .delete cl hcl c hpc f hm
    | unlock2 c =>
      have := hmu (by simp [hpc, holdsLock])
      simp only [hpc, unlock, this, Option.some.injEq] at h; subst h
      exact .unlock2 cl hcl c hpc
    | leaderReturn c =>
      simp only [hpc, Option.some.injEq] at h; subst h; exact .leaderReturn cl hcl c hpc
    | returned v e => simp [hpc] at h
    | unwound c => simp [hpc] at h
    | panicked => simp [hpc] at h

theorem lockOk_same {mu : Option Nat} {cs : Nat → Option (Caller W)} {t : Nat} {cl : Caller W}
    {pc : PC} (h : LockOk mu cs) (hcl : cs t = some cl) (hb : holdsLock pc = holdsLock cl.pc) :
    LockOk mu (Function.update cs t (some { cl with pc := pc })) := by
  intro u
  by_cases hu : u = t
  · subst hu
    simp only [Function.update_same, Option.some.injEq, exists_eq_left', hb]
    rw [h u]
    simp [hcl]
  · simp only [Function.update_noteq hu]
    exact h u

theorem lockOk_acquire {cs : Nat → Option (Caller W)} {t : Nat} {cl : Caller W}
    {pc : PC} (h : LockOk none cs) (hb : holdsLock pc = true) :
    LockOk (some t) (Function.update cs t (some { cl with pc := pc })) := by
  intro u
  by_cases hu : u = t
  · subst hu
    simp [hb]
  · simp only [Function.update_noteq hu]
    have := h u
    simp only [false_iff, reduceCtorEq] at this
    simp only [Option.some.injEq, this, iff_false]
    exact fun h => hu h.symm

theorem lockOk_release {mu : Option Nat} {cs : Nat → Option (Caller W)} {t : Nat} {cl : Caller W}
    {pc : PC} (h : LockOk mu cs) (hcl : cs t = some cl) (hold : holdsLock cl.pc = true)
    (hb : holdsLock pc = false) :
    LockOk none (Function.update cs t (some { cl with pc := pc })) := by
  have hmu : mu = some t := (h t).mpr ⟨cl, hcl, hold⟩
  intro u
  by_cases hu : u = t
  · subst hu
    simp [hb]
  · simp only [Function.update_noteq hu, false_iff, reduceCtorEq]
    rw [← h u, hmu]
    simp only [Option.some.injEq]
    exact fun h => hu h.symm

theorem trail_update {log : List (Nat × Op)} {cs : Nat → Option (Caller W)} {t : Nat}
    {cl : Caller W} {pc : PC} {op : Op}
    (h : ∀ u cl', cs u = some cl' → Trail cl'.key cl'.pc (hist log u))
    (hnew : Trail cl.key pc (hist log t ++ [op])) :
    ∀ u cl', Function.update cs t (some { cl with pc := pc }) u = some cl' →
      Trail cl'.key cl'.pc (hist (log ++ [(t, op)]) u) := by
  intro u cl' hcl'
  by_cases hu : u = t
  · subst hu
    simp only [Function.update_same, Option.some.injEq] at hcl'
    subst hcl'
    rw [hist_append_self]
    exact hnew
  · rw [Function.update_noteq hu] at hcl'
    rw [hist_append_other _ _ _ _ (fun h => hu h.symm)]
    exact h u cl' hcl'

theorem callers_update_cases {cs : Nat → Option (Caller W)} {t u : Nat} {cl cl' : Caller W}
    {pc : PC} (h : Function.update cs t (some { cl with pc := pc }) u = some cl') :
    (u = t ∧ cl' = { cl with pc := pc }) ∨ (u ≠ t ∧ cs u = some cl') := by
  by_cases hu : u = t
  · subst hu
    simp only [Function.update_same, Option.some.injEq] at h
    exact Or.inl ⟨rfl, h.symm⟩
  · rw [Function.update_noteq hu] at h
    exact Or.inr ⟨hu, h⟩

theorem admitting_holdsLock {pc : PC} (h : admitting pc = true) : holdsLock pc = true := by
  cases pc <;> simp_all [admitting, holdsLock]

theorem inFlight_eq {pc : PC} {c : Nat} :
    inFlight pc c = true ↔ pc = .missUnlock c ∨ pc = .callFn c ∨ pc = .inFn c ∨ pc = .wgDone c
      ∨ pc = .lock2 c ∨ pc = .delete c := by
  simp [inFlight, or_assoc]

theorem inFlight_new {s : State W} (hinv : Inv s) {u c : Nat} {cl : Caller W}
    (hcl : s.callers u = some cl) (hf : inFlight cl.pc c = true) :
    (u, Op.new c) ∈ s.log ∧ (u, Op.add c) ∈ s.log ∧ (u, Op.store cl.key c) ∈ s.log
      ∧ ∀ k, (u, Op.remove k) ∉ s.log := by
  have h := hinv.trail u cl hcl
  simp only [← mem_hist]
  rcases inFlight_eq.mp hf with h1 | h1 | h1 | h1 | h1 | h1 <;>
    rw [h1] at h <;> simp only [Trail] at h <;> (try obtain ⟨v, e, h⟩ := h) <;> simp [h]

theorem inFlight_unique {s : State W} (hinv : Inv s) {u u' c c' : Nat} {cl cl' : Caller W}
    (hcl : s.callers u = some cl) (hf : inFlight cl.pc c = true)
    (hcl' : s.callers u' = some cl') (hf' : inFlight cl'.pc c' = true)
    (hk : cl.key = cl'.key) : u = u' := by
  have h1 := hinv.present u cl c hcl hf
  have h2 := hinv.present u' cl' c' hcl' hf'
  rw [hk, h2] at h1
  have hc : c' = c := Option.some.inj h1
  subst hc
  exact hinv.newUniq u u' c' (inFlight_new hinv hcl hf).1 (inFlight_new hinv hcl' hf').1

theorem registered_store {s : State W} (hinv : Inv s) {u c : Nat} {cl : Caller W}
    (hcl : s.callers u = some cl) (hf : inFlight cl.pc c = true ∨ cl.pc = .unwound c) :
    (u, Op.new c) ∈ s.log ∧ (u, Op.store cl.key c) ∈ s.log ∧
      ∀ k, (u, Op.remove k) ∉ s.log := by
  rcases hf with hf | hf
  · obtain ⟨h1, _, h3, h4⟩ := inFlight_new hinv hcl hf
    exact ⟨h1, h3, h4⟩
  · have h := hinv.trail u cl hcl
    rw [hf] at h
    simp only [Trail] at h
    simp only [← mem_hist]
    simp [h]

section step
variable {s s' : State W} {t : Nat}

theorem step_dom (hinv : Inv s) (hstep : Step s t s') :
    ∀ u, s'.callers u = none ↔ s'.ncallers ≤ u := by
  have key : ∀ cl, s.callers t = some cl → t < s.ncallers := by
    intro cl hcl
    by_contra hlt
    have := (hinv.dom t).mpr (by omega)
    simp [this] at hcl
  cases hstep <;> intro u <;> by_cases hu : u = t <;>
    simp [Function.update_apply, hu, hinv.dom] <;> exact key _ ‹_›

theorem step_logDom (hinv : Inv s) (hstep : Step s t s') :
    ∀ u op, (u, op) ∈ s'.log → u < s'.ncallers := by
  have key : ∀ cl, s.callers t = some cl → t < s.ncallers := by
    intro cl hcl
    by_contra hlt
    have := (hinv.dom t).mpr (by omega)
    simp [this] at hcl
  cases hstep <;> intro u op hm <;> simp at hm ⊢ <;>
    (rcases hm with hm | ⟨rfl, _⟩
     · exact hinv.logDom _ _ hm
     · exact key _ ‹_›)

theorem step_newLt (hinv : Inv s) (hstep : Step s t s') :
    ∀ u c, (u, Op.new c) ∈ s'.log → c < s'.next := by
  cases hstep <;> intro u c' hm <;> simp at hm ⊢ <;>
    first
    | exact hinv.newLt _ _ hm
    | (rcases hm with hm | ⟨_, rfl⟩
       · have := hinv.newLt _ _ hm; omega
       · omega)

theorem step_newUniq (hinv : Inv s) (hstep : Step s t s') :
    ∀ u u' c, (u, Op.new c) ∈ s'.log → (u', Op.new c) ∈ s'.log → u = u' := by
  cases hstep <;> intro u u' c' hm hm' <;> simp at hm hm' ⊢ <;>
    first
    | exact hinv.newUniq _ _ _ hm hm'
    | (rcases hm with hm | ⟨rfl, rfl⟩ <;> rcases hm' with hm' | ⟨rfl, hc⟩
       · exact hinv.newUniq _ _ _ hm hm'
       · have := hinv.newLt _ _ hm; omega
       · have := hinv.newLt _ _ hm'; omega
       · rfl)

theorem step_mapInit (hinv : Inv s) (hstep : Step s t s') :
    ∀ u, (u, Op.init) ∈ s'.log → s'.g.m ≠ none := by
  cases hstep <;> intro u hm <;> simp at hm ⊢ <;>
    first
    | exact hinv.mapInit _ hm
    | simp_all

theorem step_lockInv (hinv : Inv s) (hstep : Step s t s') :
    ∀ u, s'.g.mu = some u ↔ ∃ cl, s'.callers u = some cl ∧ holdsLock cl.pc = true := by
  have hL : LockOk s.g.mu s.callers := hinv.lockInv
  cases hstep with
  | lock1 cl hcl hpc hmu => rw [hmu] at hL; exact lockOk_acquire hL rfl
  | lock2 cl hcl c hpc hmu => rw [hmu] at hL; exact lockOk_acquire hL rfl
  | hitUnlock cl hcl c hpc => exact lockOk_release hL hcl (by rw [hpc]; rfl) rfl
  | missUnlock cl hcl c hpc => exact lockOk_release hL hcl (by rw [hpc]; rfl) rfl
  | unlock2 cl hcl c hpc => exact lockOk_release hL hcl (by rw [hpc]; rfl) rfl
  | _ => exact lockOk_same hL ‹_› (by simp [*, holdsLock])

theorem step_trail (hinv : Inv s) (hstep : Step s t s') :
    ∀ u cl, s'.callers u = some cl → Trail cl.key cl.pc (hist s'.log u) := by
  cases hstep with
  | leaderReturn cl hcl c hpc =>
    apply trail_update hinv.trail
    have h := hinv.trail t cl hcl
    rw [hpc] at h
    simp only [Trail] at h
    obtain ⟨v, e, h⟩ := h
    have hres := hinv.heapRes t c v e ((mem_hist _ _ _).mp (by simp [h]))
    simp [Trail, h, hres.1, hres.2]
  | _ =>
    apply trail_update hinv.trail
    have h := hinv.trail t _ ‹_›
    simp only [*, Trail] at h
    try obtain ⟨v, e, h⟩ := h
    simp [Trail, h]

theorem step_absent (hinv : Inv s) (hstep : Step s t s') :
    ∀ u cl, s'.callers u = some cl → admitting cl.pc = true → mapGet s'.g.m cl.key = none := by
  have hA := hinv.absent
  have hlock : ∀ u cl, s.callers u = some cl → holdsLock cl.pc = true → s.g.mu = some u :=
    fun u cl hcl hl => (hinv.lockInv u).mpr ⟨cl, hcl, hl⟩
  have excl : ∀ cl, s.callers t = some cl → holdsLock cl.pc = true →
      ∀ u cl', u ≠ t → s.callers u = some cl' → admitting cl'.pc = true → False := by
    intro cl hcl hl u cl' hu hcl' ha
    have h1 := hlock t cl hcl hl
    have h2 := hlock u cl' hcl' (admitting_holdsLock ha)
    rw [h1] at h2
    exact hu (Option.some.inj h2).symm
  cases hstep with
  | initNil cl hcl hpc hm => intro u cl' _ _; simp [mapGet]
  | insert cl hcl c hpc f hm =>
    intro u cl' hcl' ha
    rcases callers_update_cases hcl' with ⟨rfl, rfl⟩ | ⟨hu, hcl'⟩
    · simp [admitting] at ha
    · exact (excl cl hcl (by simp [hpc, holdsLock]) u cl' hu hcl' ha).elim
  | delete cl hcl c hpc f hm =>
    intro u cl' hcl' ha
    rcases callers_update_cases hcl' with ⟨rfl, rfl⟩ | ⟨hu, hcl'⟩
    · simp [admitting] at ha
    · exact (excl cl hcl (by simp [hpc, holdsLock]) u cl' hu hcl' ha).elim
  | miss cl hcl hpc hc =>
    intro u cl' hcl' ha
    rcases callers_update_cases hcl' with ⟨rfl, rfl⟩ | ⟨hu, hcl'⟩
    · exact hc
    · exact hA u cl' hcl' ha
  | newCall cl hcl hpc =>
    intro u cl' hcl' ha
    rcases callers_update_cases hcl' with ⟨rfl, rfl⟩ | ⟨hu, hcl'⟩
    · exact hA u cl hcl (by simp [hpc, admitting])
    · exact hA u cl' hcl' ha
  | wgAdd cl hcl c hpc =>
    intro u cl' hcl' ha
    rcases callers_update_cases hcl' with ⟨rfl, rfl⟩ | ⟨hu, hcl'⟩
    · exact hA u cl hcl (by simp [hpc, admitting])
    · exact hA u cl' hcl' ha
  | _ =>
    intro u cl' hcl' ha
    rcases callers_update_cases hcl' with ⟨rfl, rfl⟩ | ⟨hu, hcl'⟩
    · simp [admitting] at ha
    · exact hA u cl' hcl' ha

theorem step_present (hinv : Inv s) (hstep : Step s t s') :
    ∀ u cl c, s'.callers u = some cl → inFlight cl.pc c = true →
      mapGet s'.g.m cl.key = some c := by
  have hP := hinv.present
  cases hstep with
  | initNil cl hcl hpc hm =>
    intro u cl' c' hcl' hf
    rcases callers_update_cases hcl' with ⟨rfl, rfl⟩ | ⟨hu, hcl'⟩
    · simp [inFlight] at hf
    · have := hP u cl' c' hcl' hf
      simp [hm, mapGet] at this
  | insert cl hcl c hpc f hm =>
    intro u cl' c' hcl' hf
    rcases callers_update_cases hcl' with ⟨rfl, rfl⟩ | ⟨hu, hcl'⟩
    · simp [inFlight] at hf
      subst hf
      simp [mapGet]
    · have h1 := hP u cl' c' hcl' hf
      have h2 := hinv.absent t cl hcl (by simp [hpc, admitting])
      have hk : cl'.key ≠ cl.key := by
        intro hk; rw [hk, h2] at h1; simp at h1
      simpa [mapGet, hm, Function.update_apply, hk] using h1
  | delete cl hcl c hpc f hm =>
    intro u cl' c' hcl' hf
    rcases callers_update_cases hcl' with ⟨rfl, rfl⟩ | ⟨hu, hcl'⟩
    · simp [inFlight] at hf
    · have h1 := hP u cl' c' hcl' hf
      have hf2 : inFlight cl.pc c = true := by simp [hpc, inFlight]
      have hk : cl'.key ≠ cl.key := by
        intro hk
        exact hu (inFlight_unique hinv hcl' hf hcl hf2 hk)
      simpa [mapGet, hm, Function.update_apply, hk] using h1
  | missUnlock cl hcl c hpc | callFn cl hcl c hpc | inFn cl hcl c hpc | wgDone cl hcl c hpc
  | lock2 cl hcl c hpc =>
    intro u cl' c' hcl' hf
    rcases callers_update_cases hcl' with ⟨rfl, rfl⟩ | ⟨hu, hcl'⟩
    · simp [inFlight] at hf
      subst hf
      exact hP u cl c hcl (by simp [hpc, inFlight])
    · exact hP u cl' c' hcl' hf
  | _ =>
    intro u cl' c' hcl' hf
    rcases callers_update_cases hcl' with ⟨rfl, rfl⟩ | ⟨hu, hcl'⟩
    · simp [inFlight] at hf
    · exact hP u cl' c' hcl' hf

theorem step_presentU (hinv : Inv s) (hstep : Step s t s') :
    ∀ u cl c, s'.callers u = some cl → cl.pc = .unwound c →
      mapGet s'.g.m cl.key = some c := by
  have hU := hinv.presentU
  have unew : ∀ u cl c, s.callers u = some cl → cl.pc = .unwound c → (u, Op.new c) ∈ s.log := by
    intro u cl c hcl hpc
    have h := hinv.trail u cl hcl
    rw [hpc] at h
    simp only [Trail] at h
    rw [← mem_hist, h]
    simp
  cases hstep with
  | initNil cl hcl hpc hm =>
    intro u cl' c' hcl' hf
    rcases callers_update_cases hcl' with ⟨rfl, rfl⟩ | ⟨hu, hcl'⟩
    · simp at hf
    · have := hU u cl' c' hcl' hf
      simp [hm, mapGet] at this
  | insert cl hcl c hpc f hm =>
    intro u cl' c' hcl' hf
    rcases callers_update_cases hcl' with ⟨rfl, rfl⟩ | ⟨hu, hcl'⟩
    · simp at hf
    · have h1 := hU u cl' c' hcl' hf
      have h2 := hinv.absent t cl hcl (by simp [hpc, admitting])
      have hk : cl'.key ≠ cl.key := by
        intro hk; rw [hk, h2] at h1; simp at h1
      simpa [mapGet, hm, Function.update_apply, hk] using h1
  | delete cl hcl c hpc f hm =>
    intro u cl' c' hcl' hf
    rcases callers_update_cases hcl' with ⟨rfl, rfl⟩ | ⟨hu, hcu⟩
    · simp at hf
    · have h1 := hU u cl' c' hcu hf
      have hf2 : inFlight cl.pc c = true := by simp [hpc, inFlight]
      have hnu := unew u cl' c' hcu hf
      have hnt := (inFlight_new hinv hcl hf2).1
      have hk : cl'.key ≠ cl.key := by
        intro hk
        have h2 := hinv.present t cl c hcl hf2
        rw [← hk, h1] at h2
        have hc : c' = c := Option.some.inj h2
        rw [hc] at hnu
        exact hu (hinv.newUniq u t c hnu hnt)
      simpa [mapGet, hm, Function.update_apply, hk] using h1
  | unwind cl hcl c hpc hp =>
    intro u cl' c' hcl' hf
    rcases callers_update_cases hcl' with ⟨rfl, rfl⟩ | ⟨hu, hcl'⟩
    · simp at hf
      subst hf
      exact hinv.present u cl c hcl (by simp [hpc, inFlight])
    · exact hU u cl' c' hcl' hf
  | _ =>
    intro u cl' c' hcl' hf
    rcases callers_update_cases hcl' with ⟨rfl, rfl⟩ | ⟨hu, hcl'⟩
    · simp at hf
    · exact hU u cl' c' hcl' hf

theorem step_leader (hinv : Inv s) (hstep : Step s t s') :
    ∀ k c, mapGet s'.g.m k = some c →
      ∃ u cl, s'.callers u = some cl ∧ cl.key = k ∧
        (inFlight cl.pc c = true ∨ cl.pc = .unwound c) := by
  have hL := hinv.leader
  have keep : ∀ (cl : Caller W) (pc : PC) (k : String) (c : Nat), s.callers t = some cl →
      (cl.key = k → (inFlight cl.pc c = true ∨ cl.pc = .unwound c) →
        (inFlight pc c = true ∨ pc = .unwound c)) →
      (∃ u cl', s.callers u = some cl' ∧ cl'.key = k ∧
        (inFlight cl'.pc c = true ∨ cl'.pc = .unwound c)) →
      ∃ u cl', Function.update s.callers t (some { cl with pc := pc }) u = some cl' ∧
        cl'.key = k ∧ (inFlight cl'.pc c = true ∨ cl'.pc = .unwound c) := by
    rintro cl pc k c hcl himp ⟨u, cl', hcl', hk, hf⟩
    by_cases hu : u = t
    · subst hu
      rw [hcl] at hcl'
      cases hcl'
      exact ⟨u, { cl with pc := pc }, by simp, hk, himp hk hf⟩
    · exact ⟨u, cl', by simp [Function.update_noteq hu, hcl'], hk, hf⟩
  cases hstep with
  | initNil cl hcl hpc hm => intro k c h; simp [mapGet] at h
  | insert cl hcl c hpc f hm =>
    intro k c' h
    by_cases hk : k = cl.key
    · subst hk
      simp [mapGet] at h
      subst h
      exact ⟨t, { cl with pc := .missUnlock c }, by simp, rfl, Or.inl (by simp [inFlight])⟩
    · simp [mapGet, Function.update_apply, hk] at h
      apply keep cl _ k c' hcl _ (hL k c' (by simpa [mapGet, hm] using h))
      intro hk'; exact absurd hk'.symm hk
  | delete cl hcl c hpc f hm =>
    intro k c' h
    by_cases hk : k = cl.key
    · subst hk
      simp [mapGet] at h
    · simp [mapGet, Function.update_apply, hk] at h
      apply keep cl _ k c' hcl _ (hL k c' (by simpa [mapGet, hm] using h))
      intro hk'; exact absurd hk'.symm hk
  | _ =>
    intro k c' h
    apply keep _ _ k c' ‹_› _ (hL k c' h)
    intro _ hf
    simp [*, inFlight] at hf ⊢
    try exact hf

end step

theorem caller_of_log {s : State W} (hinv : Inv s) {u : Nat} {op : Op} (h : (u, op) ∈ s.log) :
    ∃ cl, s.callers u = some cl ∧ Trail cl.key cl.pc (hist s.log u) := by
  have hlt := hinv.logDom u op h
  cases hcl : s.callers u with
  | none => have := (hinv.dom u).mp hcl; omega
  | some cl => exact ⟨cl, rfl, hinv.trail u cl hcl⟩

theorem log_result {s : State W} (hinv : Inv s) {u c : Nat} {v : Iface} {e : Error}
    (h : (u, Op.result c v e) ∈ s.log) :
    (u, Op.new c) ∈ s.log ∧ (u, Op.add c) ∈ s.log ∧ (u, Op.invoke c) ∈ s.log ∧
      ∀ v' e', (u, Op.result c v' e') ∈ s.log → v' = v ∧ e' = e := by
  obtain ⟨cl, hcl, htr⟩ := caller_of_log hinv h
  simp only [← mem_hist] at h ⊢
  cases hpc : cl.pc <;> rw [hpc] at htr <;> simp only [Trail] at htr <;>
    first
    | exact htr.elim
    | (simp [htr] at h ⊢ <;> simp_all; done)
    | (obtain ⟨v1, e1, htr⟩ := htr; simp [htr] at h ⊢ <;> simp_all; done)
    | (rcases htr with ⟨c1, htr⟩ | ⟨c1, htr⟩ <;> simp [htr] at h ⊢ <;> simp_all; done)

theorem log_signal {s : State W} (hinv : Inv s) {u c : Nat}
    (h : (u, Op.signal c) ∈ s.log) :
    (u, Op.new c) ∈ s.log ∧ (u, Op.add c) ∈ s.log ∧ ∃ v e, (u, Op.result c v e) ∈ s.log := by
  obtain ⟨cl, hcl, htr⟩ := caller_of_log hinv h
  simp only [← mem_hist] at h ⊢
  cases hpc : cl.pc <;> rw [hpc] at htr <;> simp only [Trail] at htr <;>
    first
    | exact htr.elim
    | (simp [htr] at h ⊢ <;> simp_all; done)
    | (obtain ⟨v1, e1, htr⟩ := htr; simp [htr] at h ⊢ <;> simp_all; done)
    | (rcases htr with ⟨c1, htr⟩ | ⟨c1, htr⟩ <;> simp [htr] at h ⊢ <;> simp_all; done)

theorem log_store {s : State W} (hinv : Inv s) {u c : Nat} {k : String}
    (h : (u, Op.store k c) ∈ s.log) :
    (u, Op.new c) ∈ s.log ∧ (u, Op.add c) ∈ s.log ∧ keyOf s u = some k := by
  obtain ⟨cl, hcl, htr⟩ := caller_of_log hinv h
  simp only [← mem_hist, keyOf, hcl] at h ⊢
  cases hpc : cl.pc <;> rw [hpc] at htr <;> simp only [Trail] at htr <;>
    first
    | exact htr.elim
    | (simp [htr] at h ⊢ <;> simp_all; done)
    | (obtain ⟨v1, e1, htr⟩ := htr; simp [htr] at h ⊢ <;> simp_all; done)
    | (rcases htr with ⟨c1, htr⟩ | ⟨c1, htr⟩ <;> simp [htr] at h ⊢ <;> simp_all; done)

theorem hist_of_pc {s : State W} (hinv : Inv s) {t : Nat} {cl : Caller W} {pc : PC}
    (hcl : s.callers t = some cl) (hpc : cl.pc = pc) : Trail cl.key pc (hist s.log t) := by
  have := hinv.trail t cl hcl
  rwa [hpc] at this

section step
variable {s s' : State W} {t : Nat}

theorem step_heapWg (hinv : Inv s) (hstep : Step s t s') :
    ∀ u c, (u, Op.new c) ∈ s'.log →
      (s'.heap c).wg = (if (u, Op.add c) ∈ s'.log then 1 else 0)
        - (if (u, Op.signal c) ∈ s'.log then 1 else 0) := by
  have hW := hinv.heapWg
  cases hstep with
  | newCall cl hcl hpc =>
    intro u c hm
    have htr := hist_of_pc hinv hcl hpc
    simp only [Trail] at htr
    simp at hm ⊢
    rcases hm with hm | ⟨rfl, rfl⟩
    · have hlt := hinv.newLt _ _ hm
      have hne : c ≠ s.next := by omega
      simp only [Function.update_noteq hne]
      exact hW u c hm
    · have h1 : (u, Op.add s.next) ∉ s.log := by rw [← mem_hist, htr]; simp
      have h2 : (u, Op.signal s.next) ∉ s.log := by rw [← mem_hist, htr]; simp
      simp [h1, h2]
  | wgAdd cl hcl c hpc =>
    intro u c' hm
    have htr := hist_of_pc hinv hcl hpc
    simp only [Trail] at htr
    have hown : (t, Op.new c) ∈ s.log := by rw [← mem_hist, htr]; simp
    simp at hm ⊢
    by_cases hc : c' = c
    · subst hc
      have hu := hinv.newUniq u t c' hm hown
      subst hu
      have old := hW u c' hm
      have h1 : (u, Op.add c') ∉ s.log := by rw [← mem_hist, htr]; simp
      simp only [h1, if_false] at old
      simp [old]
      omega
    · simp only [Function.update_noteq hc, hc, and_false, or_false]
      exact hW u c' hm
  | wgDone cl hcl c hpc =>
    intro u c' hm
    have htr := hist_of_pc hinv hcl hpc
    simp only [Trail] at htr
    obtain ⟨v, e, htr⟩ := htr
    have hown : (t, Op.new c) ∈ s.log := by rw [← mem_hist, htr]; simp
    simp at hm ⊢
    by_cases hc : c' = c
    · subst hc
      have hu := hinv.newUniq u t c' hm hown
      subst hu
      have old := hW u c' hm
      have h1 : (u, Op.signal c') ∉ s.log := by rw [← mem_hist, htr]; simp
      simp only [h1, if_false] at old
      simp [old]
    · simp only [Function.update_noteq hc, hc, and_false, or_false]
      exact hW u c' hm
  | inFn cl hcl c hpc =>
    intro u c' hm
    simp at hm ⊢
    by_cases hc : c' = c
    · subst hc
      simp only [Function.update_same]
      exact hW u c' hm
    · simp only [Function.update_noteq hc]
      exact hW u c' hm
  | _ =>
    intro u c' hm
    simp at hm ⊢
    exact hW u c' hm

theorem step_heapRes (hinv : Inv s) (hstep : Step s t s') :
    ∀ u c v e, (u, Op.result c v e) ∈ s'.log → (s'.heap c).val = v ∧ (s'.heap c).err = e := by
  have hR := hinv.heapRes
  cases hstep with
  | newCall cl hcl hpc =>
    intro u c v e hm
    simp at hm ⊢
    have hlt := hinv.newLt _ _ (log_result hinv hm).1
    have hne : c ≠ s.next := by omega
    simp only [Function.update_noteq hne]
    exact hR u c v e hm
  | inFn cl hcl c hpc =>
    intro u c' v e hm
    have htr := hist_of_pc hinv hcl hpc
    simp only [Trail] at htr
    have hown : (t, Op.new c) ∈ s.log := by rw [← mem_hist, htr]; simp
    simp at hm ⊢
    rcases hm with hm | ⟨rfl, rfl, rfl, rfl⟩
    · by_cases hc : c' = c
      · subst hc
        have hu := hinv.newUniq u t c' (log_result hinv hm).1 hown
        subst hu
        rw [← mem_hist, htr] at hm
        simp at hm
      · simp only [Function.update_noteq hc]
        exact hR u c' v e hm
    · simp
  | wgAdd cl hcl c hpc | wgDone cl hcl c hpc =>
    intro u c' v e hm
    simp at hm ⊢
    by_cases hc : c' = c
    · subst hc
      simp only [Function.update_same]
      exact hR u c' v e hm
    · simp only [Function.update_noteq hc]
      exact hR u c' v e hm
  | _ =>
    intro u c' v e hm
    simp at hm ⊢
    exact hR u c' v e hm

theorem step_hitStore (hinv : Inv s) (hstep : Step s t s') :
    ∀ u cl c, s'.callers u = some cl → (u, Op.hit c) ∈ s'.log →
      ∃ l, (l, Op.store cl.key c) ∈ s'.log := by
  have hH := hinv.hitStore
  have old : ∀ (cl : Caller W) (pc : PC) (op : Op), s.callers t = some cl →
      ∀ u cl' c, Function.update s.callers t (some { cl with pc := pc }) u = some cl' →
        (u, Op.hit c) ∈ s.log → ∃ l, (l, Op.store cl'.key c) ∈ s.log ++ [(t, op)] := by
    intro cl pc op hcl u cl' c hcl' hm
    rcases callers_update_cases hcl' with ⟨rfl, rfl⟩ | ⟨hu, hcl'⟩
    · obtain ⟨l, hl⟩ := hH u cl c hcl hm
      exact ⟨l, by simp [hl]⟩
    · obtain ⟨l, hl⟩ := hH u cl' c hcl' hm
      exact ⟨l, by simp [hl]⟩
  cases hstep with
  | hit cl hcl hpc c hc =>
    intro u cl' c' hcl' hm
    simp only [goto_log, List.mem_append, List.mem_singleton, Prod.mk.injEq, Op.hit.injEq] at hm
    rcases hm with hm | ⟨rfl, rfl⟩
    · exact old cl _ _ hcl u cl' c' hcl' hm
    · simp only [goto_callers, Function.update_same, Option.some.injEq] at hcl'
      subst hcl'
      obtain ⟨l, cl0, hcl0, hk, hf⟩ := hinv.leader cl.key c' hc
      refine ⟨l, ?_⟩
      have := (registered_store hinv hcl0 hf).2.1
      rw [hk] at this
      simp [this]
  | _ =>
    intro u cl' c' hcl' hm
    simp only [goto_log, List.mem_append, List.mem_singleton, Prod.mk.injEq, reduceCtorEq,
      and_false, or_false] at hm
    exact old _ _ _ ‹_› u cl' c' hcl' hm

theorem step_wokeSignal (hinv : Inv s) (hstep : Step s t s') :
    ∀ u c, (u, Op.woke c) ∈ s'.log → ∃ l, (l, Op.signal c) ∈ s'.log := by
  have hS := hinv.wokeSignal
  cases hstep with
  | wait cl hcl c hpc hwg =>
    intro u c' hm
    simp only [goto_log, List.mem_append, List.mem_singleton, Prod.mk.injEq, Op.woke.injEq] at hm
    rcases hm with hm | ⟨rfl, rfl⟩
    · obtain ⟨l, hl⟩ := hS u c' hm
      exact ⟨l, by simp [hl]⟩
    · have htr := hist_of_pc hinv hcl hpc
      simp only [Trail] at htr
      have hhit : (u, Op.hit c') ∈ s.log := by rw [← mem_hist, htr]; simp
      obtain ⟨l, hl⟩ := hinv.hitStore u cl c' hcl hhit
      obtain ⟨hn, ha, _⟩ := log_store hinv hl
      have hw := hinv.heapWg l c' hn
      simp only [ha, if_true, hwg] at hw
      refine ⟨l, ?_⟩
      by_cases hs : (l, Op.signal c') ∈ s.log
      · simp [hs]
      · simp [hs] at hw
  | _ =>
    intro u c' hm
    simp only [goto_log, List.mem_append, List.mem_singleton, Prod.mk.injEq, reduceCtorEq,
      and_false, or_false] at hm
    obtain ⟨l, hl⟩ := hS u c' hm
    exact ⟨l, by simp [hl]⟩

theorem step_hitRet (hinv : Inv s) (hstep : Step s t s') :
    ∀ u c v e, (u, Op.hit c) ∈ s'.log → (u, Op.ret v e) ∈ s'.log →
      ∃ l, (l, Op.result c v e) ∈ s'.log := by
  have hR := hinv.hitRet
  cases hstep with
  | hit cl hcl hpc c hc =>
    intro u c' v e hm hr
    have htr := hist_of_pc hinv hcl hpc
    simp only [Trail] at htr
    simp only [goto_log, List.mem_append, List.mem_singleton, Prod.mk.injEq, Op.hit.injEq,
      reduceCtorEq, and_false, or_false] at hm hr
    rcases hm with hm | ⟨rfl, rfl⟩
    · obtain ⟨l, hl⟩ := hR u c' v e hm hr
      exact ⟨l, by simp [hl]⟩
    · rw [← mem_hist, htr] at hr
      simp at hr
  | hitReturn cl hcl c hpc =>
    intro u c' v e hm hr
    have htr := hist_of_pc hinv hcl hpc
    simp only [Trail] at htr
    simp only [goto_log, List.mem_append, List.mem_singleton, Prod.mk.injEq, Op.ret.injEq,
      reduceCtorEq, and_false, or_false] at hm hr
    rcases hr with hr | ⟨rfl, rfl, rfl⟩
    · obtain ⟨l, hl⟩ := hR u c' v e hm hr
      exact ⟨l, by simp [hl]⟩
    · have hc : c' = c := by
        rw [← mem_hist, htr] at hm
        simpa using hm
      subst hc
      have hwoke : (u, Op.woke c') ∈ s.log := by rw [← mem_hist, htr]; simp
      obtain ⟨l, hl⟩ := hinv.wokeSignal u c' hwoke
      obtain ⟨_, _, v, e, hres⟩ := log_signal hinv hl
      obtain ⟨hv, he⟩ := hinv.heapRes l c' v e hres
      refine ⟨l, ?_⟩
      simp [hv, he, hres]
  | leaderReturn cl hcl c hpc =>
    intro u c' v e hm hr
    have htr := hist_of_pc hinv hcl hpc
    simp only [Trail] at htr
    obtain ⟨v0, e0, htr⟩ := htr
    simp only [goto_log, List.mem_append, List.mem_singleton, Prod.mk.injEq, Op.ret.injEq,
      reduceCtorEq, and_false, or_false] at hm hr
    rcases hr with hr | ⟨rfl, rfl, rfl⟩
    · obtain ⟨l, hl⟩ := hR u c' v e hm hr
      exact ⟨l, by simp [hl]⟩
    · rw [← mem_hist, htr] at hm
      simp at hm
  | _ =>
    intro u c' v e hm hr
    simp only [goto_log, List.mem_append, List.mem_singleton, Prod.mk.injEq, reduceCtorEq,
      and_false, or_false] at hm hr
    obtain ⟨l, hl⟩ := hR u c' v e hm hr
    exact ⟨l, by simp [hl]⟩

end step

section step
variable {s s' : State W} {t : Nat}

theorem step_resFn (hinv : Inv s) (hstep : Step s t s') :
    ∀ u cl c v e, s'.callers u = some cl → (u, Op.result c v e) ∈ s'.log →
      ∃ w, (cl.fn w).1 = (v, e) := by
  have hF := hinv.resFn
  have old : ∀ (cl : Caller W) (pc : PC), s.callers t = some cl →
      ∀ u cl' c v e, Function.update s.callers t (some { cl with pc := pc }) u = some cl' →
        (u, Op.result c v e) ∈ s.log → ∃ w, (cl'.fn w).1 = (v, e) := by
    intro cl pc hcl u cl' c v e hcl' hm
    rcases callers_update_cases hcl' with ⟨rfl, rfl⟩ | ⟨hu, hcl'⟩
    · exact hF u cl c v e hcl hm
    · exact hF u cl' c v e hcl' hm
  cases hstep with
  | inFn cl hcl c hpc =>
    intro u cl' c' v e hcl' hm
    simp only [goto_log, List.mem_append, List.mem_singleton, Prod.mk.injEq,
      Op.result.injEq] at hm
    rcases hm with hm | ⟨rfl, rfl, rfl, rfl⟩
    · exact old cl _ hcl u cl' c' v e hcl' hm
    · simp only [goto_callers, Function.update_same, Option.some.injEq] at hcl'
      subst hcl'
      exact ⟨s.world, rfl⟩
  | _ =>
    intro u cl' c' v e hcl' hm
    simp only [goto_log, List.mem_append, List.mem_singleton, Prod.mk.injEq, reduceCtorEq,
      and_false, or_false] at hm
    exact old _ _ ‹_› u cl' c' v e hcl' hm

theorem step_panicFn (hinv : Inv s) (hstep : Step s t s') :
    ∀ u cl c, s'.callers u = some cl → cl.pc = .unwound c → ∃ w, cl.panics w = true := by
  have hF := hinv.panicFn
  cases hstep with
  | unwind cl hcl c hpc hp =>
    intro u cl' c' hcl' hpc'
    rcases callers_update_cases hcl' with ⟨rfl, rfl⟩ | ⟨hu, hcu⟩
    · exact ⟨s.world, hp⟩
    · exact hF u cl' c' hcu hpc'
  | _ =>
    intro u cl' c' hcl' hpc'
    rcases callers_update_cases hcl' with ⟨rfl, rfl⟩ | ⟨hu, hcu⟩
    · simp at hpc'
    · exact hF u cl' c' hcu hpc'

end step

/-! ## The invariant holds in every reachable state -/

theorem inv_step {s s' : State W} {t : Nat} (hinv : Inv s) (h : Do s t = some s') : Inv s' := by
  have hstep := Do_step hinv h
  exact
    { dom := step_dom hinv hstep
      logDom := step_logDom hinv hstep
      lockInv := step_lockInv hinv hstep
      trail := step_trail hinv hstep
      mapInit := step_mapInit hinv hstep
      absent := step_absent hinv hstep
      present := step_present hinv hstep
      presentU := step_presentU hinv hstep
      leader := step_leader hinv hstep
      newLt := step_newLt hinv hstep
      newUniq := step_newUniq hinv hstep
      heapWg := step_heapWg hinv hstep
      heapRes := step_heapRes hinv hstep
      hitStore := step_hitStore hinv hstep
      wokeSignal := step_wokeSignal hinv hstep
      hitRet := step_hitRet hinv hstep
      resFn := step_resFn hinv hstep
      panicFn := step_panicFn hinv hstep }

theorem inv_reachableP {s : State W} (h : ReachableP s) : Inv s := by
  induction h with
  | init w => exact inv_init w
  | call k f p _ ih => exact inv_enter ih k f p
  | step t _ hd ih => exact inv_step ih hd

theorem reachableP_of_reachable {s : State W} (h : Reachable s) : ReachableP s := by
  induction h with
  | init w => exact ReachableP.init w
  | call k f _ ih => exact ReachableP.call k f (fun _ => false) ih
  | step t _ hd ih => exact ReachableP.step t ih hd

theorem inv_reachable {s : State W} (h : Reachable s) : Inv s :=
  inv_reachableP (reachableP_of_reachable h)

theorem update_same_args {cs : Nat → Option (Caller W)} {t u : Nat} {cl cl' : Caller W}
    {pc : PC} (hcl : cs t = some cl)
    (h : Function.update cs t (some { cl with pc := pc }) u = some cl') :
    ∃ cl0, cs u = some cl0 ∧ cl'.key = cl0.key ∧ cl'.fn = cl0.fn ∧
      cl'.panics = cl0.panics ∧ (u ≠ t → cl' = cl0) := by
  rcases callers_update_cases h with ⟨rfl, rfl⟩ | ⟨hu, hcu⟩
  · exact ⟨cl, hcl, rfl, rfl, rfl, fun h => absurd rfl h⟩
  · exact ⟨cl', hcu, rfl, rfl, rfl, fun _ => rfl⟩

theorem step_same_args {s s' : State W} {t : Nat} (hstep : Step s t s') :
    ∀ u cl', s'.callers u = some cl' →
      ∃ cl, s.callers u = some cl ∧ cl'.key = cl.key ∧ cl'.fn = cl.fn ∧
        cl'.panics = cl.panics ∧ (u ≠ t → cl' = cl) := by
  cases hstep <;> intro u cl' hcl' <;> exact update_same_args ‹s.callers t = some _› hcl'

theorem returns_reachable {s : State W} (h : Reachable s) :
    ∀ t cl, s.callers t = some cl → ∀ w, cl.panics w = false := by
  induction h with
  | init w => intro t cl hcl; simp [init] at hcl
  | @call s k f hs ih =>
    intro t cl hcl w
    by_cases ht : t = s.ncallers
    · subst ht
      simp [spawn, enter] at hcl
      subst hcl
      rfl
    · simp [spawn, enter, Function.update_noteq ht] at hcl
      exact ih t cl hcl w
  | @step s s' u hs hd ih =>
    have hstep := Do_step (inv_reachable hs) hd
    intro t cl hcl w
    obtain ⟨cl0, hcl0, _, _, hp, _⟩ := step_same_args hstep t cl hcl
    rw [hp]
    exact ih t cl0 hcl0 w

theorem not_unwound {s : State W} (h : Reachable s) :
    ∀ t cl c, s.callers t = some cl → cl.pc ≠ .unwound c := by
  intro t cl c hcl hpc
  obtain ⟨w, hw⟩ := (inv_reachable h).panicFn t cl c hcl hpc
  rw [returns_reachable h t cl hcl w] at hw
  cases hw

theorem leader_returning {s : State W} (h : Reachable s) :
    ∀ k c, mapGet s.g.m k = some c →
      ∃ t cl, s.callers t = some cl ∧ cl.key = k ∧ inFlight cl.pc c = true := by
  intro k c hk
  obtain ⟨t, cl, hcl, hkey, hf⟩ := (inv_reachable h).leader k c hk
  rcases hf with hf | hf
  · exact ⟨t, cl, hcl, hkey, hf⟩
  · exact absurd hf (not_unwound h t cl c hcl)

/-! ## Runs of one caller alone -/

theorem runSolo_add (s : State W) (t a b : Nat) :
    runSolo s t (a + b) = (runSolo s t a).bind fun s' => runSolo s' t b := by
  induction a generalizing s with
  | zero => simp [runSolo]
  | succ a ih =>
    rw [Nat.succ_add]
    simp only [runSolo]
    cases Do s t with
    | none => rfl
    | some s1 => simpa using ih s1

theorem solo_enter (s : State W) (t : Nat) (cl : Caller W) (hcl : s.callers t = some cl)
    (hpc : cl.pc = .lock1) (hmu : s.g.mu = none) :
    ∃ s' m, runSolo s t 2 = some s' ∧ s'.callers t = some { cl with pc := .lookup } ∧
      s'.g.mu = some t ∧ s'.g.m = some m ∧ (∀ k, m k = mapGet s.g.m k) ∧
      s'.heap = s.heap ∧ s'.next = s.next ∧ s'.world = s.world ∧
      s'.log = s.log ++ [(t, .lock), (t, .init)] ∧ SameOthers s s' t := by
  cases hm : s.g.m with
  | none =>
    simp [runSolo, Do, goto, lock, hcl, hpc, hmu, hm, mapGet, SameOthers]
    intro u hu; simp [Function.update_apply, hu]
  | some m =>
    simp [runSolo, Do, goto, lock, hcl, hpc, hmu, hm, mapGet, SameOthers]
    intro u hu; simp [Function.update_apply, hu]

theorem solo_store (s : State W) (t : Nat) (cl : Caller W) (hcl : s.callers t = some cl)
    (hpc : cl.pc = .lookup) (hmu : s.g.mu = some t) (m : String → Option Nat)
    (hm : s.g.m = some m) (hk : m cl.key = none) (hp : cl.panics s.world = false) :
    ∃ s', runSolo s t 7 = some s' ∧ s'.callers t = some { cl with pc := .wgDone s.next } ∧
      s'.g.mu = none ∧ s'.g.m = some (Function.update m cl.key (some s.next)) ∧
      s'.heap = Function.update s.heap s.next ⟨1, (cl.fn s.world).1.1, (cl.fn s.world).1.2⟩ ∧
      s'.next = s.next + 1 ∧ s'.world = (cl.fn s.world).2 ∧
      s'.log = s.log ++ [(t, .miss), (t, .new s.next), (t, .add s.next),
        (t, .store cl.key s.next), (t, .unlock), (t, .invoke s.next),
        (t, .result s.next (cl.fn s.world).1.1 (cl.fn s.world).1.2)] ∧ SameOthers s s' t := by
  simp [runSolo, Do, goto, unlock, hcl, hpc, hmu, hm, mapGet, hk, hp, SameOthers]
  intro u hu; simp [Function.update_apply, hu]

theorem solo_retire (s : State W) (t : Nat) (cl : Caller W) (hcl : s.callers t = some cl)
    (c : Nat) (hpc : cl.pc = .wgDone c) (hmu : s.g.mu = none) (m : String → Option Nat)
    (hm : s.g.m = some m) (hwg : (s.heap c).wg = 1) :
    ∃ s', runSolo s t 5 = some s' ∧
      s'.callers t = some { cl with pc := .returned (s.heap c).val (s.heap c).err } ∧
      s'.g.mu = none ∧ s'.g.m = some (Function.update m cl.key none) ∧
      s'.heap = Function.update s.heap c ⟨0, (s.heap c).val, (s.heap c).err⟩ ∧
      s'.next = s.next ∧ s'.world = s.world ∧
      s'.log = s.log ++ [(t, .signal c), (t, .lock), (t, .remove cl.key), (t, .unlock),
        (t, .ret (s.heap c).val (s.heap c).err)] ∧ SameOthers s s' t := by
  simp [runSolo, Do, goto, lock, unlock, hcl, hpc, hmu, hm, mapGet, hwg, SameOthers]
  intro u hu; simp [Function.update_apply, hu]

theorem solo_leader (s : State W) (k : String) (f : W → (Iface × Error) × W)
    (hmu : s.g.mu = none) (hk : mapGet s.g.m k = none) :
    ∃ s', runSolo (spawn s k f) s.ncallers 14 = some s' ∧
      s'.callers s.ncallers
        = some ⟨k, f, fun _ => false, .returned (f s.world).1.1 (f s.world).1.2⟩ ∧
      s'.world = (f s.world).2 ∧ s'.g.mu = none ∧ mapGet s'.g.m k = none ∧
      (∀ k', k' ≠ k → mapGet s'.g.m k' = mapGet s.g.m k') ∧
      s'.log = s.log ++ (leaderPath k s.next (f s.world).1.1 (f s.world).1.2).map
        (fun op => (s.ncallers, op)) ∧
      s'.ncallers = s.ncallers + 1 ∧ s'.next = s.next + 1 ∧
      (∀ u, u ≠ s.ncallers → s'.callers u = s.callers u) := by
  obtain ⟨s1, m1, r1, c1, mu1, hm1, hmk1, hp1, n1, w1, l1, o1⟩ :=
    solo_enter (spawn s k f) s.ncallers ⟨k, f, fun _ => false, .lock1⟩ (by simp [spawn, enter]) rfl hmu
  have hk1 : m1 k = none := by rw [hmk1]; exact hk
  have n1 : s1.next = s.next := by simp [n1, spawn, enter]
  have w1 : s1.world = s.world := by simp [w1, spawn, enter]
  obtain ⟨s2, r2, c2, mu2, hm2, hp2, n2, w2, l2, o2⟩ :=
    solo_store s1 s.ncallers _ c1 rfl mu1 m1 hm1 hk1 rfl
  have hwg : (s2.heap s1.next).wg = 1 := by simp [hp2]
  obtain ⟨s3, r3, c3, mu3, hm3, hp3, n3, w3, l3, o3⟩ :=
    solo_retire s2 s.ncallers _ c2 s1.next rfl mu2 _ hm2 hwg
  have hv : (s2.heap s1.next).val = (f s.world).1.1 ∧ (s2.heap s1.next).err = (f s.world).1.2 := by
    rw [hp2, w1]; simp
  refine ⟨s3, ?_, ?_, ?_, mu3, ?_, ?_, ?_, ?_, ?_, ?_⟩
  · rw [show 14 = 2 + (7 + 5) from rfl, runSolo_add, r1, Option.bind, runSolo_add, r2]
    exact r3
  · simp [c3, hv]
  · simp [w3, w2, w1]
  · simp [mapGet, hm3]
  · intro k' hk'
    simp [mapGet, hm3, Function.update_apply, hk', hmk1]
    simp [spawn, enter]
  · simp [l3, l2, l1, hv, w1, leaderPath]
    simp [n1, spawn, enter]
  · simp [o3.1, o2.1, o1.1, spawn, enter]
  · simp [n3, n2, n1]
  · intro u hu
    rw [o3.2 u hu, o2.2 u hu, o1.2 u hu]
    simp [spawn, enter, Function.update_apply, hu]

/-! ## The contract -/

theorem reachable_after {s : State W} (hs : Reachable s) (as : List (Action W)) :
    Reachable (after s as) := by
  induction as generalizing s with
  | nil => exact hs
  | cons a as ih =>
    simp only [after]
    cases a with
    | call k f => exact ih (Reachable.call k f hs)
    | step t =>
      cases hd : Do s t with
      | none => simpa [exec, hd] using hs
      | some s1 => simpa [exec, hd] using ih (Reachable.step t hs hd)

theorem reachableP_after {s : State W} (hs : ReachableP s) (as : List (Action W)) :
    ReachableP (after s as) := by
  induction as generalizing s with
  | nil => exact hs
  | cons a as ih =>
    simp only [after]
    cases a with
    | call k f => exact ih (ReachableP.call k f (fun _ => false) hs)
    | step t =>
      cases hd : Do s t with
      | none => simpa [exec, hd] using hs
      | some s1 => simpa [exec, hd] using ih (ReachableP.step t hs hd)

theorem returned_leader {s : State W} (hs : Reachable s) {t : Nat} {cl : Caller W}
    {v : Iface} {e : Error} (hcl : s.callers t = some cl) (hpc : cl.pc = .returned v e)
    (hmiss : (t, Op.miss) ∈ s.log) :
    (∃ c, hist s.log t = leaderPath cl.key c v e) ∧ ∃ w, (cl.fn w).1 = (v, e) := by
  have hinv := inv_reachable hs
  have htr := hist_of_pc hinv hcl hpc
  simp only [Trail] at htr
  rcases htr with ⟨c, htr⟩ | ⟨c, htr⟩
  · rw [← mem_hist, htr] at hmiss
    simp at hmiss
  · refine ⟨⟨c, by simpa [leaderPath] using htr⟩, ?_⟩
    exact hinv.resFn t cl c v e hcl ((mem_hist _ _ _).mp (by simp [htr]))

/-- C3: from every state in which the mutex is free and `k` is not registered, a call
`Do(k, f)` run on its own returns after fourteen lines, and returns exactly the pair
that `f` returned: the error is nil exactly when `f`'s error is nil, the caller's lines
are the miss path with one invocation of `f` and no fault; and under every
interleaving, a caller that took the miss branch and has returned has returned a pair
that its own function produced. -/
theorem leader_returns_fn_result (s : State W) (k : String) (f : W → (Iface × Error) × W)
    (hmu : s.g.mu = none) (hk : mapGet s.g.m k = none) :
    (∃ s' v e, runSolo (spawn s k f) s.ncallers 14 = some s' ∧
      pcOf s' s.ncallers = some (.returned v e) ∧ (v, e) = (f s.world).1 ∧
      (e = none ↔ (f s.world).1.2 = none) ∧
      s'.log = s.log ++ (leaderPath k s.next v e).map (fun op => (s.ncallers, op))) ∧
    (∀ s₁ : State W, Reachable s₁ → ∀ t cl v e, s₁.callers t = some cl →
      cl.pc = .returned v e → (t, Op.miss) ∈ s₁.log →
      (∃ c, hist s₁.log t = leaderPath cl.key c v e) ∧ ∃ w, (cl.fn w).1 = (v, e)) := by
  constructor
  · obtain ⟨s', hr, hc, _, _, _, _, hl, _⟩ := solo_leader s k f hmu hk
    exact ⟨s', (f s.world).1.1, (f s.world).1.2, hr, by simp [pcOf, hc], rfl, Iff.rfl, hl⟩
  · intro s₁ hs₁ t cl v e hcl hpc hmiss
    exact returned_leader hs₁ hcl hpc hmiss

theorem leader_returns_fn_result_witness :
    (init (0 : Nat)).g.mu = none ∧ mapGet (init (0 : Nat)).g.m "boom" = none ∧
    ∃ s' v e, runSolo (spawn (init 0) "boom" failing) 0 14 = some s' ∧
      pcOf s' 0 = some (.returned v e) ∧ (v, e) = (none, some 7) :=
  ⟨rfl, rfl, by
    obtain ⟨⟨s', v, e, h1, h2, h3, _⟩, _⟩ :=
      leader_returns_fn_result (init (0 : Nat)) "boom" failing rfl rfl
    exact ⟨s', v, e, h1, h2, h3⟩⟩

theorem invokes_append (l₁ l₂ : List (Nat × Op)) : invokes (l₁ ++ l₂) = invokes l₁ + invokes l₂ := by
  simp [invokes]

/-- C4: from every state in which the mutex is free and `k` is not registered, after
`Do(k, f1)` has returned `k` is absent from the map again, and a following
`Do(k, f2)` takes the miss branch with a new `call`, invokes `f2` (two invocations in
all, one of each function, the world passing through both) and returns what `f2`
returned on the world `f1` left, whatever `f1` returned. -/
theorem retired_key_runs_again (s : State W) (k : String) (f1 f2 : W → (Iface × Error) × W)
    (hmu : s.g.mu = none) (hk : mapGet s.g.m k = none) :
    ∃ s1 s2, runSolo (spawn s k f1) s.ncallers 14 = some s1 ∧
      pcOf s1 s.ncallers = some (.returned (f1 s.world).1.1 (f1 s.world).1.2) ∧
      mapGet s1.g.m k = none ∧
      runSolo (spawn s1 k f2) s1.ncallers 14 = some s2 ∧
      pcOf s2 s1.ncallers = some (.returned (f2 (f1 s.world).2).1.1 (f2 (f1 s.world).2).1.2) ∧
      pcOf s2 s.ncallers = some (.returned (f1 s.world).1.1 (f1 s.world).1.2) ∧
      s2.log = s.log
        ++ (leaderPath k s.next (f1 s.world).1.1 (f1 s.world).1.2).map
            (fun op => (s.ncallers, op))
        ++ (leaderPath k (s.next + 1) (f2 (f1 s.world).2).1.1 (f2 (f1 s.world).2).1.2).map
            (fun op => (s.ncallers + 1, op)) ∧
      invokes s2.log = invokes s.log + 2 ∧
      s2.world = (f2 (f1 s.world).2).2 ∧
      mapGet s2.g.m k = none := by
  obtain ⟨s1, r1, c1, w1, mu1, k1, _, l1, n1, x1, _⟩ := solo_leader s k f1 hmu hk
  obtain ⟨s2, r2, c2, w2, mu2, k2, _, l2, n2, x2, o2⟩ := solo_leader s1 k f2 mu1 k1
  have hne : s.ncallers ≠ s1.ncallers := by omega
  refine ⟨s1, s2, r1, by simp [pcOf, c1], k1, r2, ?_, ?_, ?_, ?_, ?_, k2⟩
  · simp [pcOf, c2, w1]
  · simp [pcOf, o2 s.ncallers hne, c1]
  · rw [l2, l1, w1, x1, n1]
  · rw [l2, l1, invokes_append, invokes_append]
    simp [invokes, leaderPath]
  · rw [w2, w1]

theorem retired_key_runs_again_witness :
    (init (0 : Nat)).g.mu = none ∧ mapGet (init (0 : Nat)).g.m "k" = none ∧
    ∃ s1 s2, runSolo (spawn (init 0) "k" failing) 0 14 = some s1 ∧
      pcOf s1 0 = some (.returned none (some 7)) ∧
      runSolo (spawn s1 "k" counting) s1.ncallers 14 = some s2 ∧
      pcOf s2 s1.ncallers = some (.returned (some 11) none) ∧
      invokes s2.log = 2 ∧ s2.world = 2 :=
  ⟨rfl, rfl, by
    obtain ⟨s1, s2, h1, h2, _, h4, h5, _, _, h8, h9, _⟩ :=
      retired_key_runs_again (init (0 : Nat)) "k" failing counting rfl rfl
    exact ⟨s1, s2, h1, h2, h4, h5, h8, h9⟩⟩

/-- C7: on the zero-value group a call `Do(k, f)` run on its own does not fault: it
allocates the map, misses, invokes `f` once and returns what `f` returned; and in
every reachable state no caller has faulted, the map is allocated whenever a caller
stands at the lookup or at the insert, a key that no leader ever stored is absent from
the map, and a caller that took the hit branch on a record found one that a leader
had stored under the caller's own key. -/
theorem zero_value_group_misses (w : W) (k : String) (f : W → (Iface × Error) × W) :
    (∃ s', runSolo (spawn (init w) k f) 0 14 = some s' ∧
      pcOf s' 0 = some (.returned (f w).1.1 (f w).1.2) ∧
      s'.log = (leaderPath k 0 (f w).1.1 (f w).1.2).map (fun op => (0, op)) ∧
      s'.world = (f w).2) ∧
    (∀ s : State W, Reachable s →
      (∀ t cl, s.callers t = some cl → cl.pc ≠ .panicked) ∧
      (∀ t, (t, Op.fault) ∉ s.log) ∧
      (∀ t cl, s.callers t = some cl → (cl.pc = .lookup ∨ ∃ c, cl.pc = .insert c) →
        s.g.m ≠ none) ∧
      (∀ k', (∀ l c, (l, Op.store k' c) ∉ s.log) → mapGet s.g.m k' = none) ∧
      (∀ t cl c, s.callers t = some cl → (t, Op.hit c) ∈ s.log →
        ∃ l, (l, Op.store cl.key c) ∈ s.log)) := by
  constructor
  · obtain ⟨s', hr, hc, hw, _, _, _, hl, _⟩ := solo_leader (init w) k f rfl rfl
    have hc' : s'.callers 0 = some ⟨k, f, fun _ => false, .returned (f w).1.1 (f w).1.2⟩ := hc
    exact ⟨s', hr, by simp [pcOf, hc'], by simpa [init] using hl, hw⟩
  · intro s hs
    have hinv := inv_reachable hs
    refine ⟨?_, ?_, ?_, ?_, hinv.hitStore⟩
    · intro t cl hcl hpc
      have := hist_of_pc hinv hcl hpc
      simp [Trail] at this
    · intro t hm
      obtain ⟨cl, hcl, htr⟩ := caller_of_log hinv hm
      rw [← mem_hist] at hm
      cases hpc : cl.pc <;> rw [hpc] at htr <;> simp only [Trail] at htr <;>
        first
        | exact htr.elim
        | (simp [htr] at hm; done)
        | (obtain ⟨v1, e1, htr⟩ := htr; simp [htr] at hm; done)
        | (rcases htr with ⟨c1, htr⟩ | ⟨c1, htr⟩ <;> simp [htr] at hm; done)
    · intro t cl hcl hpc
      have hin : (t, Op.init) ∈ s.log := by
        rw [← mem_hist]
        rcases hpc with hpc | ⟨c, hpc⟩
        · have := hist_of_pc hinv hcl hpc
          simp only [Trail] at this
          simp [this]
        · have := hist_of_pc hinv hcl hpc
          simp only [Trail] at this
          simp [this]
      exact hinv.mapInit t hin
    · intro k' hno
      cases hg : mapGet s.g.m k' with
      | none => rfl
      | some c =>
        obtain ⟨l, cl, hcl, hkey, hf⟩ := hinv.leader k' c hg
        have := (registered_store hinv hcl hf).2.1
        rw [hkey] at this
        exact absurd this (hno l c)

theorem countP_log_eq_hist (log : List (Nat × Op)) (l : Nat) (p : Op → Bool)
    (h : ∀ u op, (u, op) ∈ log → p op = true → u = l) :
    log.countP (fun e => p e.2) = (hist log l).countP p := by
  induction log with
  | nil => simp [hist]
  | cons x xs ih =>
    obtain ⟨u, o⟩ := x
    have ih' := ih (fun u' op' hm hp => h u' op' (List.mem_cons_of_mem _ hm) hp)
    by_cases hu : u = l
    · subst hu
      simp only [hist, List.countP_cons, List.filter_cons, decide_True, if_true, List.map_cons]
        at ih' ⊢
      rw [ih']
    · have hp : p o = false := by
        by_contra hp
        exact hu (h u o (List.mem_cons_self _ _) (by simpa using hp))
      simp only [hist, List.countP_cons, List.filter_cons, hu, decide_False, hp] at ih' ⊢
      simpa using ih'

theorem log_invoke {s : State W} (hinv : Inv s) {u c : Nat}
    (h : (u, Op.invoke c) ∈ s.log) :
    (u, Op.new c) ∈ s.log ∧ (∀ c', (u, Op.hit c') ∉ s.log) ∧
      (hist s.log u).countP (fun op => decide (op = Op.invoke c)) = 1 := by
  obtain ⟨cl, hcl, htr⟩ := caller_of_log hinv h
  simp only [← mem_hist] at h ⊢
  cases hpc : cl.pc <;> rw [hpc] at htr <;> simp only [Trail] at htr <;>
    first
    | exact htr.elim
    | (simp [htr] at h ⊢ <;> simp_all [List.countP_cons]; done)
    | (obtain ⟨v1, e1, htr⟩ := htr; simp [htr] at h ⊢ <;> simp_all [List.countP_cons]; done)
    | (rcases htr with ⟨c1, htr⟩ | ⟨c1, htr⟩ <;> simp [htr] at h ⊢ <;>
        simp_all [List.countP_cons]; done)

theorem invocations_of_invoke {s : State W} (hinv : Inv s) {l c : Nat}
    (h : (l, Op.invoke c) ∈ s.log) : invocations s.log c = 1 := by
  have hown := (log_invoke hinv h).1
  have hall : ∀ u op, (u, op) ∈ s.log → decide (op = Op.invoke c) = true → u = l := by
    intro u op hm hop
    have : op = Op.invoke c := by simpa using hop
    subst this
    exact hinv.newUniq u l c (log_invoke hinv hm).1 hown
  have := countP_log_eq_hist s.log l (fun op => decide (op = Op.invoke c)) hall
  simp only [invocations]
  rw [this]
  exact (log_invoke hinv h).2.2

theorem invocations_le_one {s : State W} (hinv : Inv s) (c : Nat) : invocations s.log c ≤ 1 := by
  by_cases h : ∃ l, (l, Op.invoke c) ∈ s.log
  · obtain ⟨l, hl⟩ := h
    rw [invocations_of_invoke hinv hl]
  · have : invocations s.log c = 0 := by
      simp only [invocations, List.countP_eq_zero]
      rintro ⟨u, op⟩ hm hop
      have : op = Op.invoke c := by simpa using hop
      subst this
      exact h ⟨u, hm⟩
    omega

theorem signal_invoked {s : State W} (hinv : Inv s) {l c : Nat}
    (h : (l, Op.signal c) ∈ s.log) : (l, Op.invoke c) ∈ s.log := by
  obtain ⟨_, _, v, e, hres⟩ := log_signal hinv h
  exact (log_result hinv hres).2.2.1

theorem Do_lookup_hit {s : State W} {t c : Nat} {cl : Caller W} (hcl : s.callers t = some cl)
    (hpc : cl.pc = .lookup) (hc : mapGet s.g.m cl.key = some c) :
    Do s t = some (goto s t cl (.hitUnlock c) (.hit c)) := by
  simp [Do, hcl, hpc, hc]

theorem Do_lookup_miss {s : State W} {t : Nat} {cl : Caller W} (hcl : s.callers t = some cl)
    (hpc : cl.pc = .lookup) (hc : mapGet s.g.m cl.key = none) :
    Do s t = some (goto s t cl .newCall .miss) := by
  simp [Do, hcl, hpc, hc]

theorem hit_never_invokes {s : State W} (hinv : Inv s) {t c : Nat}
    (h : (t, Op.hit c) ∈ s.log) : ∀ c', (t, Op.invoke c') ∉ s.log := by
  intro c' hi
  exact (log_invoke hinv hi).2.1 c h

/-- C1: in every reachable state, a caller that takes the mutex (line 43) or executes
its lookup (line 47) while a leader for its key stands between its insert and its
delete takes the hit branch; a
caller that took the hit branch has not invoked its function, in this or any later
state; for every `call` record a function is invoked at most once, and exactly once,
by the leader that signals it, by the time completion is signalled; and two callers
with the same key are never both between insert and delete, so at most one
invocation for a key is in progress. -/
theorem one_execution_in_flight (s : State W) (hs : Reachable s) :
    (∀ t cl, s.callers t = some cl → cl.pc = .lock1 → s.g.mu = none →
      (∃ l cl' c, s.callers l = some cl' ∧ cl'.key = cl.key ∧ inFlight cl'.pc c = true) →
      ∃ s' c, runSolo s t 3 = some s' ∧ pcOf s' t = some (.hitUnlock c) ∧
        hist s'.log t = [.lock, .init, .hit c]) ∧
    (∀ t cl, s.callers t = some cl → cl.pc = .lookup →
      (∃ l cl' c, s.callers l = some cl' ∧ cl'.key = cl.key ∧ inFlight cl'.pc c = true) →
      ∃ c, Do s t = some (goto s t cl (.hitUnlock c) (.hit c))) ∧
    (∀ t c, (t, Op.hit c) ∈ s.log → ∀ c', (t, Op.invoke c') ∉ s.log) ∧
    (∀ c, invocations s.log c ≤ 1) ∧
    (∀ l c, (l, Op.signal c) ∈ s.log →
      (l, Op.invoke c) ∈ s.log ∧ invocations s.log c = 1) ∧
    (∀ t t' cl cl' c c', s.callers t = some cl → s.callers t' = some cl' →
      cl.key = cl'.key → inFlight cl.pc c = true → inFlight cl'.pc c' = true →
      t = t' ∧ c = c') := by
  have hinv := inv_reachable hs
  refine ⟨?_, ?_, fun t c h => hit_never_invokes hinv h, invocations_le_one hinv, ?_, ?_⟩
  · rintro t cl hcl hpc hmu ⟨l, cl', c, hcl', hk, hf⟩
    have hreg := hinv.present l cl' c hcl' hf
    rw [hk] at hreg
    have h0 : hist s.log t = [] := by
      have := hist_of_pc hinv hcl hpc
      simpa [Trail] using this
    obtain ⟨s1, m1, r1, c1, _, hm1, hmk1, _, _, _, l1, _⟩ := solo_enter s t cl hcl hpc hmu
    have hget : mapGet s1.g.m cl.key = some c := by
      simp only [mapGet, hm1, hmk1]
      exact hreg
    have hd := Do_lookup_hit (s := s1) (t := t) c1 rfl hget
    refine ⟨goto s1 t ⟨cl.key, cl.fn, cl.panics, .lookup⟩ (.hitUnlock c) (.hit c), c, ?_,
      by simp [pcOf], ?_⟩
    · rw [show 3 = 2 + 1 from rfl, runSolo_add, r1]
      simp [runSolo, hd]
    · simp only [goto_log, l1, List.append_assoc]
      rw [hist_append, h0]
      simp [hist]
  · rintro t cl hcl hpc ⟨l, cl', c, hcl', hk, hf⟩
    have := hinv.present l cl' c hcl' hf
    rw [hk] at this
    exact ⟨c, Do_lookup_hit hcl hpc this⟩
  · intro l c h
    exact ⟨signal_invoked hinv h, invocations_of_invoke hinv (signal_invoked hinv h)⟩
  · intro t t' cl cl' c c' hcl hcl' hk hf hf'
    have ht := inFlight_unique hinv hcl hf hcl' hf' hk
    subst ht
    rw [hcl] at hcl'
    cases hcl'
    have h1 := hinv.present t cl c hcl hf
    have h2 := hinv.present t cl c' hcl hf'
    rw [h1] at h2
    exact ⟨rfl, Option.some.inj h2⟩

theorem one_execution_in_flight_witness :
    Reachable contended ∧ pcOf contended 0 = some (.inFn 0) ∧
      pcOf contended 1 = some .lookup ∧
      (∃ c, Do contended 1 = some (goto contended 1 ⟨"k", failing, fun _ => false, .lookup⟩
        (.hitUnlock c) (.hit c))) ∧
      invocations contended.log 0 ≤ 1 :=
  have h := one_execution_in_flight contended (reachable_after (Reachable.init 0) _)
  ⟨reachable_after (Reachable.init 0) _, by decide, by decide,
    h.2.1 1 ⟨"k", failing, fun _ => false, .lookup⟩ rfl rfl
      ⟨0, ⟨"k", counting, fun _ => false, .inFn 0⟩, 0, rfl, rfl, by decide⟩,
    h.2.2.2.1 0⟩

theorem log_write {s : State W} (hinv : Inv s) {u c : Nat} {v : Iface} {e : Error}
    (h : (u, Op.result c v e) ∈ s.log) :
    (hist s.log u).countP (isWrite c) = 1 := by
  obtain ⟨cl, hcl, htr⟩ := caller_of_log hinv h
  simp only [← mem_hist] at h ⊢
  cases hpc : cl.pc <;> rw [hpc] at htr <;> simp only [Trail] at htr <;>
    first
    | exact htr.elim
    | (simp [htr] at h ⊢ <;> simp_all [List.countP_cons, isWrite]; done)
    | (obtain ⟨v1, e1, htr⟩ := htr; simp [htr] at h ⊢ <;>
        simp_all [List.countP_cons, isWrite]; done)
    | (rcases htr with ⟨c1, htr⟩ | ⟨c1, htr⟩ <;> simp [htr] at h ⊢ <;>
        simp_all [List.countP_cons, isWrite]; done)

theorem writes_of_result {s : State W} (hinv : Inv s) {l c : Nat} {v : Iface} {e : Error}
    (h : (l, Op.result c v e) ∈ s.log) : writes s.log c = 1 := by
  have hown := (log_result hinv h).1
  have hall : ∀ u op, (u, op) ∈ s.log → isWrite c op = true → u = l := by
    intro u op hm hop
    cases op <;> simp [isWrite] at hop
    subst hop
    exact hinv.newUniq u l _ (log_result hinv hm).1 hown
  rw [writes, countP_log_eq_hist s.log l (isWrite c) hall]
  exact log_write hinv h

theorem writes_le_one {s : State W} (hinv : Inv s) (c : Nat) : writes s.log c ≤ 1 := by
  by_cases h : ∃ l v e, (l, Op.result c v e) ∈ s.log
  · obtain ⟨l, v, e, hl⟩ := h
    rw [writes_of_result hinv hl]
  · have : writes s.log c = 0 := by
      rw [writes, List.countP_eq_zero]
      rintro ⟨u, op⟩ hm hop
      cases op <;> simp [isWrite] at hop
      subst hop
      exact h ⟨u, _, _, hm⟩
    omega

theorem returned_of_result {s : State W} (hinv : Inv s) {l c : Nat} {v v' : Iface}
    {e e' : Error} {cl : Caller W} (hcl : s.callers l = some cl)
    (hres : (l, Op.result c v e) ∈ s.log) (hpc : cl.pc = .returned v' e') :
    v' = v ∧ e' = e := by
  have htr := hist_of_pc hinv hcl hpc
  rw [← mem_hist] at hres
  simp only [Trail] at htr
  rcases htr with ⟨c1, htr⟩ | ⟨c1, htr⟩ <;> simp [htr] at hres
  exact ⟨hres.2.1.symm, hres.2.2.symm⟩

/-- C2: in every reachable state, a caller that took the hit branch on the record `c`
and has returned `(v, e)` has returned the pair that the leader of `c`, the caller
that stored `c` under the same key, got from its function and wrote into `c`; the
leader, once returned, has returned the same pair; the waiter has not invoked its own
function; the result slots of a record are written at most once, they have been
written (once) in every state in which completion has been signalled, and they hold
the written pair in every state after the write. -/
theorem waiter_returns_leader_result (s : State W) (hs : Reachable s) :
    (∀ t cl c v e, s.callers t = some cl → cl.pc = .returned v e → (t, Op.hit c) ∈ s.log →
      (∃ l cl', s.callers l = some cl' ∧ (l, Op.store cl.key c) ∈ s.log ∧
        (l, Op.result c v e) ∈ s.log ∧ (∃ w, (cl'.fn w).1 = (v, e)) ∧
        ∀ v' e', cl'.pc = .returned v' e' → v' = v ∧ e' = e) ∧
      ∀ c', (t, Op.invoke c') ∉ s.log) ∧
    (∀ c, writes s.log c ≤ 1) ∧
    (∀ l c, (l, Op.signal c) ∈ s.log → writes s.log c = 1 ∧
      ∃ v e, (l, Op.result c v e) ∈ s.log ∧ (s.heap c).val = v ∧ (s.heap c).err = e) ∧
    (∀ l c v e, (l, Op.result c v e) ∈ s.log → (s.heap c).val = v ∧ (s.heap c).err = e) := by
  have hinv := inv_reachable hs
  refine ⟨?_, writes_le_one hinv, ?_, hinv.heapRes⟩
  · intro t cl c v e hcl hpc hhit
    refine ⟨?_, hit_never_invokes hinv hhit⟩
    have hret : (t, Op.ret v e) ∈ s.log := by
      have htr := hist_of_pc hinv hcl hpc
      rw [← mem_hist]
      simp only [Trail] at htr
      rcases htr with ⟨c1, htr⟩ | ⟨c1, htr⟩ <;> simp [htr]
    obtain ⟨l, hadm⟩ := hinv.hitStore t cl c hcl hhit
    obtain ⟨l', hres⟩ := hinv.hitRet t c v e hhit hret
    have hl : l' = l := hinv.newUniq l' l c (log_result hinv hres).1 (log_store hinv hadm).1
    subst hl
    obtain ⟨cl', hcl', _⟩ := caller_of_log hinv hres
    exact ⟨l', cl', hcl', hadm, hres, hinv.resFn l' cl' c v e hcl' hres,
      fun v' e' hpc' => returned_of_result hinv hcl' hres hpc'⟩
  · intro l c hsig
    obtain ⟨_, _, v, e, hres⟩ := log_signal hinv hsig
    exact ⟨writes_of_result hinv hres, v, e, hres, hinv.heapRes l c v e hres⟩

theorem waiter_returns_leader_result_witness :
    Reachable fannedOut ∧ pcOf fannedOut 1 = some (.returned none (some 7)) ∧
      pcOf fannedOut 0 = some (.returned none (some 7)) ∧ (1, Op.hit 0) ∈ fannedOut.log ∧
      (∃ l, (l, Op.result 0 none (some 7)) ∈ fannedOut.log) ∧
      ∀ c', (1, Op.invoke c') ∉ fannedOut.log :=
  have h := (waiter_returns_leader_result fannedOut (reachable_after (Reachable.init 0) _)).1
    1 ⟨"k", counting, fun _ => false, .returned none (some 7)⟩ 0 none (some 7) rfl rfl (by decide)
  ⟨reachable_after (Reachable.init 0) _, by decide, by decide, by decide,
    h.1.elim fun l hl => hl.elim fun _ hl' => ⟨l, hl'.2.2.1⟩, h.2⟩

/-- C5, refuted: a reachable state in which caller 1, holding the mutex at its lookup,
finds its key mapped to the record 0 whose completion caller 0 has already signalled;
it takes the hit branch, and returns the leader's pair without invoking its own
function while the record is still in the map. -/
theorem completed_call_observed :
    Reachable raced ∧ pcOf raced 1 = some .lookup ∧ keyOf raced 1 = some "k" ∧
      raced.g.mu = some 1 ∧ mapGet raced.g.m "k" = some 0 ∧
      (0, Op.signal 0) ∈ raced.log ∧ (raced.heap 0).wg = 0 ∧
      pcOf (after raced [.step 1]) 1 = some (.hitUnlock 0) ∧
      pcOf (after raced (List.replicate 4 (.step 1))) 1 = some (.returned (some 10) none) ∧
      mapGet (after raced (List.replicate 4 (.step 1))).g.m "k" = some 0 :=
  ⟨reachable_after (Reachable.init 0) _, by decide, by decide, by decide, by decide,
    by decide, by decide, by decide, by decide, by decide⟩

theorem log_signal_pc {s : State W} (hinv : Inv s) {u c c' : Nat} {cl : Caller W}
    (hcl : s.callers u = some cl) (hf : inFlight cl.pc c' = true)
    (h : (u, Op.signal c) ∈ s.log) : cl.pc = .lock2 c' ∨ cl.pc = .delete c' := by
  have htr := hinv.trail u cl hcl
  rw [← mem_hist] at h
  rcases inFlight_eq.mp hf with h1 | h1 | h1 | h1 | h1 | h1 <;>
    rw [h1] at htr <;> simp only [Trail] at htr <;> (try obtain ⟨v, e, htr⟩ := htr) <;>
    simp [htr] at h <;> simp [h1]

/-- C5, amended: in every reachable state in which a caller's lookup finds its key
mapped to a record `c`, the leader of `c` has stored `c` and has not executed its
delete: it stands at one of the lines 57-60, and at line 60 if completion has been
signalled; a caller whose lookup finds no leader of its key between insert and delete
takes the miss branch; and the record a caller allocates after a miss is fresh: its
address is not in the map and no line executed so far has allocated or found it. -/
theorem hit_only_before_delete (s : State W) (hs : Reachable s) :
    (∀ t cl c, s.callers t = some cl → cl.pc = .lookup → mapGet s.g.m cl.key = some c →
      ∃ l cl', s.callers l = some cl' ∧ cl'.key = cl.key ∧ (l, Op.store cl.key c) ∈ s.log ∧
        (cl'.pc = .callFn c ∨ cl'.pc = .inFn c ∨ cl'.pc = .wgDone c ∨ cl'.pc = .lock2 c) ∧
        (∀ k, (l, Op.remove k) ∉ s.log) ∧
        ((∃ u, (u, Op.signal c) ∈ s.log) → cl'.pc = .lock2 c)) ∧
    (∀ t cl, s.callers t = some cl → cl.pc = .lookup →
      (∀ l cl' c, s.callers l = some cl' → cl'.key = cl.key → inFlight cl'.pc c = false) →
      Do s t = some (goto s t cl .newCall .miss)) ∧
    (∀ t cl, s.callers t = some cl → cl.pc = .newCall →
      (∀ k, mapGet s.g.m k ≠ some s.next) ∧ (∀ u, (u, Op.new s.next) ∉ s.log) ∧
      (∀ u, (u, Op.hit s.next) ∉ s.log) ∧
      ∃ s', Do s t = some s' ∧ pcOf s' t = some (.wgAdd s.next) ∧
        s'.heap s.next = ⟨0, none, none⟩) := by
  have hinv := inv_reachable hs
  have hnew : ∀ u, (u, Op.new s.next) ∉ s.log := by
    intro u hu
    have := hinv.newLt u _ hu
    omega
  refine ⟨?_, ?_, ?_⟩
  · intro t cl c hcl hpc hc
    obtain ⟨l, cl', hcl', hk, hf⟩ := leader_returning hs cl.key c hc
    have hmu : s.g.mu = some t := (hinv.lockInv t).mpr ⟨cl, hcl, by simp [hpc, holdsLock]⟩
    have hlt : l ≠ t := by
      rintro rfl
      rw [hcl] at hcl'
      cases hcl'
      simp [hpc, inFlight] at hf
    have hnl : holdsLock cl'.pc ≠ true := by
      intro hl
      have := (hinv.lockInv l).mpr ⟨cl', hcl', hl⟩
      rw [hmu] at this
      exact hlt (Option.some.inj this).symm
    obtain ⟨_, _, hadm, hrem⟩ := inFlight_new hinv hcl' hf
    have hpcs : cl'.pc = .callFn c ∨ cl'.pc = .inFn c ∨ cl'.pc = .wgDone c ∨ cl'.pc = .lock2 c := by
      rcases inFlight_eq.mp hf with h1 | h1 | h1 | h1 | h1 | h1 <;>
        simp [h1, holdsLock] at hnl ⊢
    refine ⟨l, cl', hcl', hk, by rwa [hk] at hadm, hpcs, hrem, ?_⟩
    rintro ⟨u, hu⟩
    have hul : u = l := hinv.newUniq u l c (log_signal hinv hu).1 (inFlight_new hinv hcl' hf).1
    subst hul
    rcases log_signal_pc hinv hcl' hf hu with h1 | h1
    · exact h1
    · simp [h1, holdsLock] at hnl
  · intro t cl hcl hpc hno
    apply Do_lookup_miss hcl hpc
    cases hg : mapGet s.g.m cl.key with
    | none => rfl
    | some c =>
      obtain ⟨l, cl', hcl', hk, hf⟩ := leader_returning hs cl.key c hg
      rw [hno l cl' c hcl' hk] at hf
      cases hf
  · intro t cl hcl hpc
    refine ⟨?_, hnew, ?_, ?_⟩
    · intro k hk
      obtain ⟨l, cl', hcl', _, hf⟩ := leader_returning hs k _ hk
      exact hnew l (inFlight_new hinv hcl' hf).1
    · intro u hu
      obtain ⟨cu, hcu, _⟩ := caller_of_log hinv hu
      obtain ⟨l, hl⟩ := hinv.hitStore u cu _ hcu hu
      exact hnew l (log_store hinv hl).1
    · simp [Do, hcl, hpc, pcOf, goto]

theorem hit_only_before_delete_witness :
    Reachable raced ∧ pcOf raced 1 = some .lookup ∧ mapGet raced.g.m "k" = some 0 ∧
      ∃ l cl', raced.callers l = some cl' ∧ cl'.pc = .lock2 0 :=
  have h := (hit_only_before_delete raced (reachable_after (Reachable.init 0) _)).1
    1 ⟨"k", failing, fun _ => false, .lookup⟩ 0 rfl rfl (by decide)
  ⟨reachable_after (Reachable.init 0) _, by decide, by decide,
    h.elim fun l hl => hl.elim fun cl' hc => ⟨l, cl', hc.1, hc.2.2.2.2.2 ⟨0, by decide⟩⟩⟩

theorem admitted_not_removed {s : State W} (hinv : Inv s) {u c : Nat} {k : String}
    (h : (u, Op.store k c) ∈ s.log) (hr : (u, Op.remove k) ∉ s.log) :
    ∃ cl, s.callers u = some cl ∧ cl.key = k ∧
      (inFlight cl.pc c = true ∨ cl.pc = .unwound c) := by
  obtain ⟨cl, hcl, htr⟩ := caller_of_log hinv h
  refine ⟨cl, hcl, ?_⟩
  simp only [← mem_hist] at h hr
  cases hpc : cl.pc <;> rw [hpc] at htr <;> simp only [Trail] at htr <;>
    first
    | exact htr.elim
    | (simp [htr] at h hr ⊢ <;> simp_all [inFlight]; done)
    | (obtain ⟨v1, e1, htr⟩ := htr; simp [htr] at h hr ⊢ <;> simp_all [inFlight]; done)
    | (rcases htr with ⟨c1, htr⟩ | ⟨c1, htr⟩ <;> simp [htr] at h hr ⊢ <;>
        simp_all [inFlight]; done)

/-- C6, refuted: a reachable state in which the only caller, whose function panicked
at line 57, has left `Do` without reaching lines 58-62: no call of `Do` is active, the
mutex is free, and the key is still in the map with its record unsignalled; a later
caller of the same key takes the hit branch and stays blocked in `Wait`. -/
theorem panicking_leader_leaks_key :
    ReachableP leaked ∧ leaked.ncallers = 1 ∧ pcOf leaked 0 = some (.unwound 0) ∧
      (Do leaked 0).isNone = true ∧ leaked.g.mu = none ∧
      mapGet leaked.g.m "k" = some 0 ∧ (leaked.heap 0).wg = 1 ∧
      pcOf (after leaked (.call "k" failing :: List.replicate 4 (.step 1))) 1
        = some (.wait 0) ∧
      (Do (after leaked (.call "k" failing :: List.replicate 4 (.step 1))) 1).isNone = true :=
  ⟨reachableP_after (ReachableP.call "k" counting (fun _ => true) (ReachableP.init 0)) _,
    by decide, by decide, by decide, by decide, by decide, by decide, by decide, by decide⟩

/-- C6, amended: in every reachable state, with callers whose functions may panic,
the map has an entry for `k` exactly when the log holds an insert for `k` by a caller
that has not executed its delete, which is exactly when some caller of `Do(k, _)`
stands between its insert and its delete or has left `Do` there by a panic of its
function; while the mutex is free such a caller stands at one of the lines 57-60 or
has left by a panic; when every caller of `Do(k, _)` has returned or has not yet
executed a line, `k` is absent from the map; and when no function of a caller of
`Do(k, _)` panics, `k` is in the map exactly while a caller stands between its insert
and its delete. -/
theorem registered_iff_not_deleted (s : State W) (hs : ReachableP s) (k : String) :
    ((∃ c, mapGet s.g.m k = some c) ↔
      ∃ t c, (t, Op.store k c) ∈ s.log ∧ (t, Op.remove k) ∉ s.log) ∧
    ((∃ c, mapGet s.g.m k = some c) ↔
      ∃ t cl c, s.callers t = some cl ∧ cl.key = k ∧
        (inFlight cl.pc c = true ∨ cl.pc = .unwound c)) ∧
    (s.g.mu = none → ((∃ c, mapGet s.g.m k = some c) ↔
      ∃ t cl c, s.callers t = some cl ∧ cl.key = k ∧
        (cl.pc = .callFn c ∨ cl.pc = .inFn c ∨ cl.pc = .wgDone c ∨ cl.pc = .lock2 c ∨
          cl.pc = .unwound c))) ∧
    ((∀ t cl, s.callers t = some cl → cl.key = k →
        cl.pc = .lock1 ∨ ∃ v e, cl.pc = .returned v e) → mapGet s.g.m k = none) ∧
    ((∀ t cl, s.callers t = some cl → cl.key = k → ∀ w, cl.panics w = false) →
      ((∃ c, mapGet s.g.m k = some c) ↔
        ∃ t cl c, s.callers t = some cl ∧ cl.key = k ∧ inFlight cl.pc c = true)) := by
  have hinv := inv_reachableP hs
  have h1 : (∃ c, mapGet s.g.m k = some c) ↔
      ∃ t cl c, s.callers t = some cl ∧ cl.key = k ∧
        (inFlight cl.pc c = true ∨ cl.pc = .unwound c) := by
    constructor
    · rintro ⟨c, hc⟩
      obtain ⟨t, cl, hcl, hk, hf⟩ := hinv.leader k c hc
      exact ⟨t, cl, c, hcl, hk, hf⟩
    · rintro ⟨t, cl, c, hcl, hk, hf | hf⟩
      · exact ⟨c, by rw [← hk]; exact hinv.present t cl c hcl hf⟩
      · exact ⟨c, by rw [← hk]; exact hinv.presentU t cl c hcl hf⟩
  refine ⟨?_, h1, ?_, ?_, ?_⟩
  · rw [h1]
    constructor
    · rintro ⟨t, cl, c, hcl, hk, hf⟩
      obtain ⟨_, hst, hrem⟩ := registered_store hinv hcl hf
      exact ⟨t, c, by rwa [hk] at hst, hrem k⟩
    · rintro ⟨t, c, hst, hrem⟩
      obtain ⟨cl, hcl, hk, hf⟩ := admitted_not_removed hinv hst hrem
      exact ⟨t, cl, c, hcl, hk, hf⟩
  · intro hmu
    rw [h1]
    constructor
    · rintro ⟨t, cl, c, hcl, hk, hf⟩
      have hnl : holdsLock cl.pc ≠ true := by
        intro hl
        have := (hinv.lockInv t).mpr ⟨cl, hcl, hl⟩
        rw [hmu] at this
        cases this
      refine ⟨t, cl, c, hcl, hk, ?_⟩
      rcases hf with hf | hf
      · rcases inFlight_eq.mp hf with h | h | h | h | h | h <;> simp [h, holdsLock] at hnl ⊢
      · simp [hf]
    · rintro ⟨t, cl, c, hcl, hk, hp⟩
      refine ⟨t, cl, c, hcl, hk, ?_⟩
      rcases hp with h | h | h | h | h <;> simp [h, inFlight]
  · intro hall
    cases hg : mapGet s.g.m k with
    | none => rfl
    | some c =>
      obtain ⟨t, cl, hcl, hk, hf⟩ := hinv.leader k c hg
      rcases hall t cl hcl hk with h | ⟨v, e, h⟩ <;> simp [h, inFlight] at hf
  · intro hret
    rw [h1]
    constructor
    · rintro ⟨t, cl, c, hcl, hk, hf | hf⟩
      · exact ⟨t, cl, c, hcl, hk, hf⟩
      · obtain ⟨w, hw⟩ := hinv.panicFn t cl c hcl hf
        rw [hret t cl hcl hk w] at hw
        cases hw
    · rintro ⟨t, cl, c, hcl, hk, hf⟩
      exact ⟨t, cl, c, hcl, hk, Or.inl hf⟩

theorem registered_iff_not_deleted_witness :
    ReachableP leaked ∧ mapGet leaked.g.m "k" = some 0 ∧
      (∃ t c, (t, Op.store "k" c) ∈ leaked.log ∧ (t, Op.remove "k") ∉ leaked.log) ∧
      ∃ t cl c, leaked.callers t = some cl ∧ cl.key = "k" ∧
        (inFlight cl.pc c = true ∨ cl.pc = .unwound c) :=
  have hr : ReachableP leaked :=
    reachableP_after (ReachableP.call "k" counting (fun _ => true) (ReachableP.init 0)) _
  have h := registered_iff_not_deleted leaked hr "k"
  ⟨hr, by decide, h.1.mp ⟨0, by decide⟩, h.2.1.mp ⟨0, by decide⟩⟩

theorem Do_frame {s s' : State W} {t : Nat} {cl : Caller W} (hcl : s.callers t = some cl)
    (h : Do s t = some s') (k' : String) (hk : k' ≠ cl.key) :
    mapGet s'.g.m k' = mapGet s.g.m k' := by
  unfold Do at h
  simp only [hcl] at h
  cases hpc : cl.pc <;> simp only [hpc] at h
  case lock1 =>
    unfold lock at h
    split at h <;> simp at h
    subst h; rfl
  case initMap =>
    split at h <;> simp at h <;> subst h
    · rename_i hm; simp [mapGet, hm]
    · rfl
  case lookup =>
    split at h <;> simp at h <;> subst h <;> rfl
  case hitUnlock c =>
    simp at h; subst h; unfold unlock; split <;> rfl
  case wait c =>
    split at h <;> simp at h
    subst h; rfl
  case hitReturn c => simp at h; subst h; rfl
  case newCall => simp at h; subst h; rfl
  case wgAdd c =>
    split at h <;> simp at h <;> subst h <;> rfl
  case insert c =>
    split at h <;> simp at h <;> subst h
    · rfl
    · rename_i f hm; simp [mapGet, hm, Function.update_apply, hk]
  case missUnlock c =>
    simp at h; subst h; unfold unlock; split <;> rfl
  case callFn c => simp at h; subst h; rfl
  case inFn c =>
    split at h <;> simp at h <;> subst h <;> rfl
  case wgDone c =>
    split at h <;> simp at h <;> subst h <;> rfl
  case lock2 c =>
    unfold lock at h
    split at h <;> simp at h
    subst h; rfl
  case delete c =>
    split at h <;> simp at h <;> subst h
    · rfl
    · rename_i f hm; simp [mapGet, hm, Function.update_apply, hk]
  case unlock2 c =>
    simp at h; subst h; unfold unlock; split <;> rfl
  case leaderReturn c => simp at h; subst h; rfl
  case returned v e => simp at h
  case unwound c => simp at h
  case panicked => simp at h

theorem Do_lookup {s : State W} {t : Nat} {cl : Caller W} (hcl : s.callers t = some cl)
    (hpc : cl.pc = .lookup) :
    Do s t = some (match mapGet s.g.m cl.key with
      | some c => goto s t cl (.hitUnlock c) (.hit c)
      | none => goto s t cl .newCall .miss) := by
  cases hc : mapGet s.g.m cl.key with
  | none => exact Do_lookup_miss hcl hpc hc
  | some c => exact Do_lookup_hit hcl hpc hc

theorem leading_enabled {s : State W} {t : Nat} {cl : Caller W} (hcl : s.callers t = some cl)
    (hl : leading cl.pc = true) : (Do s t).isSome = true := by
  unfold Do
  simp only [hcl]
  cases hpc : cl.pc <;> simp [hpc, leading] at hl ⊢
  case wgAdd c => split <;> rfl
  case insert c => split <;> rfl
  case inFn c => split <;> rfl
  case wgDone c => split <;> rfl

theorem leading_step {s : State W} (hs : Reachable s) {t : Nat} {cl : Caller W}
    (hcl : s.callers t = some cl) (hl : leading cl.pc = true) :
    ∃ s', Do s t = some s' ∧ pcOf s' t ≠ some .panicked := by
  obtain ⟨s', hd⟩ := Option.isSome_iff_exists.mp (leading_enabled hcl hl)
  refine ⟨s', hd, ?_⟩
  have hinv := inv_reachable (Reachable.step t hs hd)
  intro hp
  cases hc : s'.callers t with
  | none => simp [pcOf, hc] at hp
  | some cl' =>
    have hpc : cl'.pc = .panicked := by simpa [pcOf, hc] using hp
    have := hist_of_pc hinv hc hpc
    simp [Trail] at this

theorem waiter_same_key {s : State W} (hinv : Inv s) {t c : Nat} {cl : Caller W}
    (hcl : s.callers t = some cl)
    (hpc : cl.pc = .hitUnlock c ∨ cl.pc = .wait c ∨ cl.pc = .hitReturn c) :
    ∃ l cl', s.callers l = some cl' ∧ cl'.key = cl.key ∧ (l, Op.store cl.key c) ∈ s.log := by
  have hhit : (t, Op.hit c) ∈ s.log := by
    rw [← mem_hist]
    rcases hpc with h | h | h <;>
      (have htr := hist_of_pc hinv hcl h; simp only [Trail] at htr; simp [htr])
  obtain ⟨l, hl⟩ := hinv.hitStore t cl c hcl hhit
  obtain ⟨cl', hcl', _⟩ := caller_of_log hinv hl
  have := (log_store hinv hl).2.2
  simp only [keyOf, hcl', Option.map_some', Option.some.injEq] at this
  exact ⟨l, cl', hcl', this, hl⟩

/-- C8: a line executed by a caller of `Do(k, _)` leaves the map entry of every other
key as it was; the lookup of a caller hits or misses according to the entry of its own
key alone; in every reachable state a caller whose lookup finds its own key absent
goes on, when run, to allocate and store its own record and to invoke its own
function, and no line of a leader up to its signal is ever blocked or faults, whatever
the other callers do; and a caller that waits, waits on a record that a leader stored
under the caller's own key. -/
theorem other_keys_do_not_interfere :
    (∀ (s s' : State W) t cl, s.callers t = some cl → Do s t = some s' →
      ∀ k', k' ≠ cl.key → mapGet s'.g.m k' = mapGet s.g.m k') ∧
    (∀ (s : State W) t cl, s.callers t = some cl → cl.pc = .lookup →
      Do s t = some (match mapGet s.g.m cl.key with
        | some c => goto s t cl (.hitUnlock c) (.hit c)
        | none => goto s t cl .newCall .miss)) ∧
    (∀ s : State W, Reachable s → ∀ t cl, s.callers t = some cl → cl.pc = .lookup →
      mapGet s.g.m cl.key = none →
      ∃ s', runSolo s t 7 = some s' ∧ pcOf s' t = some (.wgDone s.next) ∧
        mapGet s'.g.m cl.key = some s.next ∧ s'.world = (cl.fn s.world).2 ∧
        s'.log = s.log ++ [(t, .miss), (t, .new s.next), (t, .add s.next),
          (t, .store cl.key s.next), (t, .unlock), (t, .invoke s.next),
          (t, .result s.next (cl.fn s.world).1.1 (cl.fn s.world).1.2)]) ∧
    (∀ s : State W, Reachable s → ∀ t cl, s.callers t = some cl → leading cl.pc = true →
      ∃ s', Do s t = some s' ∧ pcOf s' t ≠ some .panicked) ∧
    (∀ s : State W, Reachable s → ∀ t cl c, s.callers t = some cl →
      (cl.pc = .hitUnlock c ∨ cl.pc = .wait c ∨ cl.pc = .hitReturn c) →
      ∃ l cl', s.callers l = some cl' ∧ cl'.key = cl.key ∧
        (l, Op.store cl.key c) ∈ s.log) := by
  refine ⟨fun s s' t cl hcl h k' hk => Do_frame hcl h k' hk,
    fun s t cl hcl hpc => Do_lookup hcl hpc, ?_,
    fun s hs t cl hcl hl => leading_step hs hcl hl,
    fun s hs t cl c hcl hpc => waiter_same_key (inv_reachable hs) hcl hpc⟩
  intro s hs t cl hcl hpc hk
  have hinv := inv_reachable hs
  have hmu : s.g.mu = some t := (hinv.lockInv t).mpr ⟨cl, hcl, by simp [hpc, holdsLock]⟩
  have hin : (t, Op.init) ∈ s.log := by
    rw [← mem_hist]
    have := hist_of_pc hinv hcl hpc
    simp only [Trail] at this
    simp [this]
  cases hm : s.g.m with
  | none => exact absurd hm (hinv.mapInit t hin)
  | some m =>
    have hk0 : m cl.key = none := by simpa [mapGet, hm] using hk
    obtain ⟨s', hr, hc, _, hm', _, _, hw, hl, _⟩ :=
      solo_store s t cl hcl hpc hmu m hm hk0 (returns_reachable hs t cl hcl s.world)
    exact ⟨s', hr, by simp [pcOf, hc], by simp [mapGet, hm'], hw, hl⟩

theorem lock_balance {s : State W} (hinv : Inv s) {t : Nat} {cl : Caller W}
    (hcl : s.callers t = some cl) :
    acquired s.log t = released s.log t + (if holdsLock cl.pc = true then 1 else 0) ∧
      acquired s.log t ≤ 2 := by
  have htr := hinv.trail t cl hcl
  simp only [acquired, released]
  cases hpc : cl.pc <;> rw [hpc] at htr <;> simp only [Trail] at htr <;>
    first
    | exact htr.elim
    | (simp [htr, holdsLock]; done)
    | (obtain ⟨v1, e1, htr⟩ := htr; simp [htr, holdsLock]; done)
    | (rcases htr with ⟨c1, htr⟩ | ⟨c1, htr⟩ <;> simp [htr, holdsLock]; done)

/-- C9: in every reachable state the mutex is held by caller `t` exactly when `t`
stands inside one of the two locked sections (lines 44-55 and 61-62); a caller that is
about to invoke or is running its function, or that stands at `Wait`, does not hold
it; every caller has taken the mutex once more than it has released it while inside a
locked section and equally often otherwise, and a caller that has returned has
released it as often as it took it. -/
theorem lock_only_around_registry (s : State W) (hs : Reachable s) :
    (∀ t cl, s.callers t = some cl → (s.g.mu = some t ↔ holdsLock cl.pc = true)) ∧
    (∀ t cl c, s.callers t = some cl →
      (cl.pc = .callFn c ∨ cl.pc = .inFn c ∨ cl.pc = .wait c) → s.g.mu ≠ some t) ∧
    (∀ t cl, s.callers t = some cl →
      acquired s.log t = released s.log t + (if holdsLock cl.pc = true then 1 else 0)) ∧
    (∀ t cl v e, s.callers t = some cl → cl.pc = .returned v e →
      acquired s.log t = released s.log t ∧ 1 ≤ acquired s.log t ∧ acquired s.log t ≤ 2) := by
  have hinv := inv_reachable hs
  have h1 : ∀ t cl, s.callers t = some cl → (s.g.mu = some t ↔ holdsLock cl.pc = true) := by
    intro t cl hcl
    rw [hinv.lockInv t]
    constructor
    · rintro ⟨cl', hcl', hl⟩
      rw [hcl] at hcl'
      cases hcl'
      exact hl
    · intro hl
      exact ⟨cl, hcl, hl⟩
  refine ⟨h1, ?_, fun t cl hcl => (lock_balance hinv hcl).1, ?_⟩
  · intro t cl c hcl hpc hmu
    have := (h1 t cl hcl).mp hmu
    rcases hpc with h | h | h <;> simp [h, holdsLock] at this
  · intro t cl v e hcl hpc
    have hb := lock_balance hinv hcl
    have htr := hist_of_pc hinv hcl hpc
    simp only [hpc, holdsLock] at hb
    refine ⟨by simpa using hb.1, ?_, hb.2⟩
    simp only [acquired, Trail] at htr ⊢
    rcases htr with ⟨c1, htr⟩ | ⟨c1, htr⟩ <;> simp [htr]

theorem lock_only_around_registry_witness :
    Reachable contended ∧ pcOf contended 0 = some (.inFn 0) ∧ contended.g.mu ≠ some 0 ∧
      acquired contended.log 0 = released contended.log 0 + 0 :=
  have h := lock_only_around_registry contended (reachable_after (Reachable.init 0) _)
  ⟨reachable_after (Reachable.init 0) _, by decide,
    h.2.1 0 ⟨"k", counting, fun _ => false, .inFn 0⟩ 0 rfl (Or.inr (Or.inl rfl)),
    h.2.2.1 0 ⟨"k", counting, fun _ => false, .inFn 0⟩ rfl⟩

/-- C10: in every reachable state in which a leader stands at its delete (line 61),
the map sends its key to the record it allocated itself at line 52, which no other
caller allocated; executing the delete removes that entry alone: the entry of every
caller between insert and delete other than this leader is still in the map. -/
theorem delete_removes_own_call (s : State W) (hs : Reachable s) (t : Nat) (cl : Caller W)
    (c : Nat) (hcl : s.callers t = some cl) (hpc : cl.pc = .delete c) :
    mapGet s.g.m cl.key = some c ∧ (t, Op.new c) ∈ s.log ∧ (t, Op.store cl.key c) ∈ s.log ∧
    (∀ l, (l, Op.new c) ∈ s.log → l = t) ∧
    ∃ s', Do s t = some s' ∧ pcOf s' t = some (.unlock2 c) ∧ mapGet s'.g.m cl.key = none ∧
      (∀ k', k' ≠ cl.key → mapGet s'.g.m k' = mapGet s.g.m k') ∧
      ∀ l cl' c', l ≠ t → s.callers l = some cl' → inFlight cl'.pc c' = true →
        s'.callers l = some cl' ∧ mapGet s'.g.m cl'.key = some c' := by
  have hinv := inv_reachable hs
  have hf : inFlight cl.pc c = true := by simp [hpc, inFlight]
  obtain ⟨hnew, _, hadm, _⟩ := inFlight_new hinv hcl hf
  refine ⟨hinv.present t cl c hcl hf, hnew, hadm, fun l hl => hinv.newUniq l t c hl hnew, ?_⟩
  have hin : (t, Op.init) ∈ s.log := by
    rw [← mem_hist]
    have := hist_of_pc hinv hcl hpc
    simp only [Trail] at this
    obtain ⟨v, e, this⟩ := this
    simp [this]
  obtain ⟨m, hm⟩ := Option.ne_none_iff_exists'.mp (hinv.mapInit t hin)
  have hd : Do s t = some (goto { s with g := { s.g with m := some (Function.update m cl.key none) } }
      t cl (.unlock2 c) (.remove cl.key)) := by
    simp [Do, hcl, hpc, hm]
  refine ⟨_, hd, by simp [pcOf], by simp [mapGet], fun k' hk' => Do_frame hcl hd k' hk', ?_⟩
  intro l cl' c' hl hcl' hf'
  have hk : cl'.key ≠ cl.key := fun hk => hl (inFlight_unique hinv hcl' hf' hcl hf hk)
  refine ⟨by simp [Function.update_noteq hl, hcl'], ?_⟩
  rw [Do_frame hcl hd cl'.key hk]
  exact hinv.present l cl' c' hcl' hf'

theorem delete_removes_own_call_witness :
    Reachable retiring ∧
      retiring.callers 0 = some ⟨"k", counting, fun _ => false, .delete 0⟩ ∧
      mapGet retiring.g.m "k" = some 0 ∧ mapGet retiring.g.m "j" = some 1 ∧
      (0, Op.new 0) ∈ retiring.log :=
  have h := delete_removes_own_call retiring (reachable_after (Reachable.init 0) _) 0
    ⟨"k", counting, fun _ => false, .delete 0⟩ 0 rfl rfl
  ⟨reachable_after (Reachable.init 0) _, rfl, h.1, by decide, h.2.1⟩

end Singleflight
